import Mathlib

/-!
Verification of the ISA model core (`isatools/model/v1.py`).

This file gives a shallow embedding of the data model and of the three
algorithmic components of the repository — the assay-graph builder
`_build_assay_graph`, and the batch generators `batch_create_materials`
and `batch_create_assays` — and proves or refutes the specified
properties about them.

Embedding conventions:
* Python scalar values are `PyVal` (`None`, `str`, `int`, `float`); the
  `float` payload is an exact rational, which is adequate here because the
  code never performs floating-point arithmetic on these values — it only
  stores them and tests their truthiness.
* Python objects live on an explicit heap (`Heap := List Obj`); an object
  reference is its index (`ObjId`), so Python object identity is index
  equality, attribute mutation is `List.set`, and object allocation is an
  append at the end of the heap.
* Each ISA class is a `Tag` on a single record `Obj` holding the union of
  the attributes the model classes define (Python objects are attribute
  dictionaries; each class uses only its own attributes and `isinstance`
  is a tag test, with the subclass chain
  `LabeledExtract <: Extract <: Material` flattened into tags).
* `copy.deepcopy` is `copyObj`: a structurally recursive (fuel-indexed)
  deep copy that allocates a fresh id for every reachable object. Callers
  pass fuel `heap.length + 1`, which bounds the depth of every
  well-formed object graph; on exhausted fuel or a dangling id the
  function returns the original id, a case no claim's input reaches.
  CPython's memo sharing inside a single `deepcopy` call is not modelled;
  none of the verified inputs contain internal sharing, and copies made
  by distinct calls never share a memo.
-/

/-- Python scalar-ish values stored in attributes. `annot` is an inlined
`OntologyAnnotation` payload (identified by its term only; the nested
annotation objects of `Characteristic`/`FactorValue` are never compared
by identity in the code under verification). `obj` is an opaque reference
to an arbitrary further Python object. -/
inductive PyVal where
  | none
  | str (s : String)
  | int (n : Int)
  | float (q : Rat)
  | annot (term : Option String)
  | obj (n : Nat)
deriving DecidableEq, Repr

/-- Python truthiness (`bool(v)`): `None`, `''`, `0` and `0.0` are falsy;
plain objects are truthy. -/
def pyTruthy : PyVal → Bool
  | PyVal.none => false
  | PyVal.str s => s != ""
  | PyVal.int n => n != 0
  | PyVal.float q => q != 0
  | PyVal.annot _ => true
  | PyVal.obj _ => true

/-- Python types named in the `@accepts(...)` declarations of the model. -/
inductive PyTy where
  | text
  | intTy
  | floatTy
  | noneTy
  | annotTy
  | objTy
deriving DecidableEq, Repr

/-- Type of a `PyVal`, as `isinstance` would classify it. -/
def typeOf : PyVal → PyTy
  | PyVal.none => PyTy.noneTy
  | PyVal.str _ => PyTy.text
  | PyVal.int _ => PyTy.intTy
  | PyVal.float _ => PyTy.floatTy
  | PyVal.annot _ => PyTy.annotTy
  | PyVal.obj _ => PyTy.objTy

/-- Modelled from the spec: the `accepts` decorator imported from
`isatools.utils`, whose source is not in the repository snapshot. Per the
spec's error-handling design, a validated setter raises at assignment
time when the assigned value's type is outside the declared accepted set,
and when the non-empty constraint (`allow_empty=False`) is violated on a
required text field; otherwise the value is stored unchanged. -/
def accepts (tys : List PyTy) (allowEmpty : Bool) (v : PyVal) : Except String PyVal :=
  if typeOf v ∈ tys then
    if allowEmpty = false ∧ v = PyVal.str "" then
      Except.error "empty value not accepted"
    else
      Except.ok v
  else
    Except.error "value of unaccepted type"

/-! ## `Comment` (`v1.py` lines 41-73)

`Comment.name` and `Comment.value` are class-level properties; the raw
assigned value is stored in the mangled slot and the `value` getter
normalizes a falsy stored value to `None` on read. -/

/-- Raw attribute store of a `Comment` instance (`__name`, `__value`). -/
structure PyComment where
  name : PyVal
  value : PyVal
deriving DecidableEq, Repr

/-- Setter `Comment.name` (`@accepts(six.text_type, None, allow_empty=False)`). -/
def comment_name_set (c : PyComment) (v : PyVal) : Except String PyComment :=
  (accepts [PyTy.text, PyTy.noneTy] false v).map fun v' => { c with name := v' }

/-- Setter `Comment.value` (`@accepts(six.text_type, int, float, None)`). -/
def comment_value_set (c : PyComment) (v : PyVal) : Except String PyComment :=
  (accepts [PyTy.text, PyTy.intTy, PyTy.floatTy, PyTy.noneTy] true v).map
    fun v' => { c with value := v' }

/-- Getter `Comment.value`: `if not self.__value: return None else: return self.__value`. -/
def comment_value_get (c : PyComment) : PyVal :=
  if pyTruthy c.value then c.value else PyVal.none

/-- Constructor `Comment.__init__(name, value=None)`: runs both setters in order. -/
def comment_init (name : PyVal) (value : PyVal := PyVal.none) : Except String PyComment := do
  let c1 ← comment_name_set { name := PyVal.none, value := PyVal.none } name
  comment_value_set c1 value

/-! ## `OntologyAnnotation` (`v1.py` lines 207-256)

The `term_accession` getter tests the stored `__term`, not the stored
`__term_accession`: `if not self.__term: return None else: return
self.__term_accession`. -/

/-- Raw attribute store of an `OntologyAnnotation` instance. -/
structure OntoAnnot where
  term : PyVal
  term_source : PyVal
  term_accession : PyVal
  id_ : PyVal
deriving DecidableEq, Repr

/-- Setter `OntologyAnnotation.term` (`@accepts(six.text_type, None)`). -/
def onto_annot_term_set (a : OntoAnnot) (v : PyVal) : Except String OntoAnnot :=
  (accepts [PyTy.text, PyTy.noneTy] true v).map fun v' => { a with term := v' }

/-- Setter `OntologyAnnotation.term_accession` (`@accepts(six.text_type, None)`). -/
def onto_annot_term_accession_set (a : OntoAnnot) (v : PyVal) : Except String OntoAnnot :=
  (accepts [PyTy.text, PyTy.noneTy] true v).map fun v' => { a with term_accession := v' }

/-- Getter `OntologyAnnotation.term_accession`: returns `None` whenever the
stored `__term` is falsy, and the raw stored `__term_accession` otherwise. -/
def onto_annot_term_accession_get (a : OntoAnnot) : PyVal :=
  if pyTruthy a.term then a.term_accession else PyVal.none

/-! ## `Publication` (`v1.py` lines 259-326)

Every `@property` / setter of `Publication` is defined in the body of
`__init__`, as a local function that is never called and never bound to
the class. The class therefore has no data descriptors for `pubmed_id`,
`doi`, `author_list`, `title` or `status`, and both `__init__`'s
assignments and any later attribute assignment use plain instance-dict
semantics: any value is stored as-is and read back as-is, with no
validation and no exception. The embedding below encodes exactly these
plain attribute semantics. -/

/-- Field names of the five `Publication` attributes whose would-be
properties are dead code. -/
inductive PubField where
  | pubmed_id
  | doi
  | author_list
  | title
  | status
deriving DecidableEq, Repr

/-- Instance attributes of a `Publication`. `comments` is set by the
inherited (and genuinely bound) `Commentable` property; the five others
are plain attributes. -/
structure Publication where
  pubmed_id : PyVal
  doi : PyVal
  author_list : PyVal
  title : PyVal
  status : PyVal
  comments : PyVal
deriving DecidableEq, Repr

/-- Plain attribute assignment `pub.<f> = v`: no descriptor is bound for
these names, so Python stores the value unconditionally. Total — never
raises. -/
def publication_setattr (p : Publication) (f : PubField) (v : PyVal) : Publication :=
  match f with
  | PubField.pubmed_id => { p with pubmed_id := v }
  | PubField.doi => { p with doi := v }
  | PubField.author_list => { p with author_list := v }
  | PubField.title => { p with title := v }
  | PubField.status => { p with status := v }

/-- Plain attribute read `pub.<f>`. -/
def publication_getattr (p : Publication) (f : PubField) : PyVal :=
  match f with
  | PubField.pubmed_id => p.pubmed_id
  | PubField.doi => p.doi
  | PubField.author_list => p.author_list
  | PubField.title => p.title
  | PubField.status => p.status

/-- Constructor `Publication.__init__`: plain assignment of each argument
(defaults `None`); `comments=None` is stored by the `Commentable` setter,
which accepts `None`. -/
def publication_init (pubmed_id doi author_list title status : PyVal) : Publication :=
  { pubmed_id := pubmed_id, doi := doi, author_list := author_list,
    title := title, status := status, comments := PyVal.none }

/-! ## Theorems for claims C8, C9, C10 -/

/-- C8: for every `OntologyAnnotation` whose stored term is falsy (`None`
or empty), reading `term_accession` yields `None` even directly after a
non-empty accession string was successfully assigned; when the term is
truthy the getter returns the stored accession unchanged. -/
theorem term_accession_getter_spec :
    (∀ (a : OntoAnnot) (s : String), pyTruthy a.term = false →
        ∃ a', onto_annot_term_accession_set a (PyVal.str s) = Except.ok a'
          ∧ a'.term_accession = PyVal.str s
          ∧ onto_annot_term_accession_get a' = PyVal.none)
    ∧ (∀ a : OntoAnnot, pyTruthy a.term = true →
        onto_annot_term_accession_get a = a.term_accession) := by
  constructor
  · intro a s hfalse
    refine ⟨{ a with term_accession := PyVal.str s }, ?_, rfl, ?_⟩
    · simp [onto_annot_term_accession_set, accepts, typeOf, Except.map]
    · simp [onto_annot_term_accession_get, hfalse]
  · intro a htrue
    simp [onto_annot_term_accession_get, htrue]

/-- C8 witness: concrete annotation with `term = None` and accession
`"ACC"` reads back `None`; with `term = "T"` it reads back the accession. -/
theorem term_accession_getter_spec_witness :
    (∃ a', onto_annot_term_accession_set
        { term := PyVal.none, term_source := PyVal.none,
          term_accession := PyVal.none, id_ := PyVal.str "" } (PyVal.str "ACC")
        = Except.ok a'
      ∧ a'.term_accession = PyVal.str "ACC"
      ∧ onto_annot_term_accession_get a' = PyVal.none)
    ∧ onto_annot_term_accession_get
        { term := PyVal.str "T", term_source := PyVal.none,
          term_accession := PyVal.str "ACC", id_ := PyVal.str "" } = PyVal.str "ACC" := by
  constructor
  · exact term_accession_getter_spec.1 _ "ACC" (by decide)
  · have h := term_accession_getter_spec.2
      { term := PyVal.str "T", term_source := PyVal.none,
        term_accession := PyVal.str "ACC", id_ := PyVal.str "" } (by decide)
    simpa using h

/-- C9: `Publication` performs no attribute validation — its property
definitions are local to `__init__` and never bound to the class, so
assigning any value (an `int` to `pubmed_id`, an arbitrary object to
`status`, …) never raises (`publication_setattr` is total) and the value
is stored and read back as-is, and `__init__` likewise stores its
arguments unchanged. -/
theorem publication_attributes_unvalidated :
    (∀ (p : Publication) (f : PubField) (v : PyVal),
        publication_getattr (publication_setattr p f v) f = v)
    ∧ (∀ a b c d e : PyVal,
        (publication_init a b c d e).pubmed_id = a
        ∧ (publication_init a b c d e).doi = b
        ∧ (publication_init a b c d e).author_list = c
        ∧ (publication_init a b c d e).title = d
        ∧ (publication_init a b c d e).status = e) := by
  constructor
  · intro p f v
    cases f <;> rfl
  · intro a b c d e
    exact ⟨rfl, rfl, rfl, rfl, rfl⟩

/-- C10: the `Comment.value` getter normalizes every falsy stored value
to `None` — not only `''` and `None`: a comment constructed with value
`0` or `0.0` reads back `None`, while truthy values read back unchanged. -/
theorem comment_value_falsy_normalized :
    ((comment_init (PyVal.str "n") (PyVal.int 0)).map comment_value_get
        = Except.ok PyVal.none)
    ∧ ((comment_init (PyVal.str "n") (PyVal.float 0)).map comment_value_get
        = Except.ok PyVal.none)
    ∧ (∀ c : PyComment, pyTruthy c.value = false → comment_value_get c = PyVal.none)
    ∧ (∀ c : PyComment, pyTruthy c.value = true → comment_value_get c = c.value) := by
  refine ⟨rfl, rfl, ?_, ?_⟩
  · intro c hfalse
    simp [comment_value_get, hfalse]
  · intro c htrue
    simp [comment_value_get, htrue]

/-- C10 witness: the universally quantified clauses applied to concrete
comments holding `0.0` (falsy) and `7` (truthy). -/
theorem comment_value_falsy_normalized_witness :
    comment_value_get { name := PyVal.str "n", value := PyVal.float 0 } = PyVal.none
    ∧ comment_value_get { name := PyVal.str "n", value := PyVal.int 7 } = PyVal.int 7 := by
  constructor
  · exact comment_value_falsy_normalized.2.2.1 _ (by decide)
  · exact comment_value_falsy_normalized.2.2.2 _ (by decide)

/-! ## The object heap

Python objects of the material/process model are records on an explicit
heap; a reference is a heap index, so `is`-identity is index equality.
Attribute mutation is `List.set`; `deepcopy` allocates at the end. -/

/-- Heap index standing for one Python object reference. -/
abbrev ObjId := Nat

/-- Concrete class of a heap object. The `isinstance` hierarchy
`LabeledExtract <: Extract <: Material` is flattened into three tags. -/
inductive Tag where
  | source
  | sample
  | material
  | extract
  | labeledExtract
  | process
  | dataFile
  | protocol
  | characteristic
  | factorValue
  | commentObj
deriving DecidableEq, Repr

/-- Value of a `derives_from` attribute: `None`, one object, or (after
list-fan-out wiring in `batch_create_assays`) a Python list of objects. -/
inductive Ref where
  | nil
  | one (i : ObjId)
  | many (l : List ObjId)
deriving DecidableEq, Repr

/-- One Python object: a class tag plus the union of the attributes the
model classes define; each class uses only its own attributes (the rest
keep their defaults). Attributes holding further model objects are object
ids (`comments`, `characteristics`, `factor_values`, `derives_from`,
`inputs`, `outputs`, `prev_process`, `next_process`, `executes_protocol`);
`deepcopy` recurses through exactly these. The annotation-valued payloads
of `Characteristic`/`FactorValue` (`category`, `value`, `unit`) and
`parameter_values`/`additional_properties` are inlined as values: the
verified code never compares them by identity nor mutates them in place,
so copying them wholesale is observably the deep copy Python performs. -/
structure Obj where
  tag : Tag
  id_ : String := ""
  name : String := ""
  type_ : String := ""
  filename : String := ""
  label : PyVal := PyVal.none
  date : PyVal := PyVal.none
  performer : PyVal := PyVal.none
  category : PyVal := PyVal.none
  value : PyVal := PyVal.none
  unit : PyVal := PyVal.none
  parameterValues : List PyVal := []
  additionalProps : List (String × PyVal) := []
  comments : Option (List ObjId) := Option.none
  characteristics : List ObjId := []
  factorValues : List ObjId := []
  derivesFrom : Ref := Ref.nil
  inputs : List ObjId := []
  outputs : List ObjId := []
  prevProcess : Option ObjId := Option.none
  nextProcess : Option ObjId := Option.none
  executesProtocol : Option ObjId := Option.none
deriving DecidableEq, Repr

/-- The heap: object `i` is `h[i]?`; allocation appends at the end. -/
abbrev Heap := List Obj

/-- Constructor `Source.__init__(id_='', name='', characteristics=None,
comments=None)`; a `None` characteristics argument becomes a fresh empty
list, `comments` is stored as passed. -/
def mkSource (id_ : String := "") (name : String := "")
    (characteristics : List ObjId := []) (comments : Option (List ObjId) := Option.none) :
    Obj :=
  { tag := Tag.source, id_ := id_, name := name,
    characteristics := characteristics, comments := comments }

/-- Constructor `Sample.__init__`. -/
def mkSample (id_ : String := "") (name : String := "")
    (factorValues : List ObjId := []) (characteristics : List ObjId := [])
    (derivesFrom : Ref := Ref.nil) (comments : Option (List ObjId) := Option.none) : Obj :=
  { tag := Tag.sample, id_ := id_, name := name, factorValues := factorValues,
    characteristics := characteristics, derivesFrom := derivesFrom, comments := comments }

/-- Constructor `Material.__init__`. -/
def mkMaterial (id_ : String := "") (name : String := "") (type_ : String := "")
    (characteristics : List ObjId := []) (derivesFrom : Ref := Ref.nil)
    (comments : Option (List ObjId) := Option.none) : Obj :=
  { tag := Tag.material, id_ := id_, name := name, type_ := type_,
    characteristics := characteristics, derivesFrom := derivesFrom, comments := comments }

/-- Constructor `Extract.__init__`: like `Material` but the tag is the
subclass and `self.type` is overwritten with `'Extract Name'`. -/
def mkExtract (id_ : String := "") (name : String := "")
    (characteristics : List ObjId := []) (derivesFrom : Ref := Ref.nil)
    (comments : Option (List ObjId) := Option.none) : Obj :=
  { mkMaterial id_ name "Extract Name" characteristics derivesFrom comments with
    tag := Tag.extract }

/-- Constructor `LabeledExtract.__init__`: an `Extract` plus a `label`. -/
def mkLabeledExtract (id_ : String := "") (name : String := "")
    (characteristics : List ObjId := []) (derivesFrom : Ref := Ref.nil)
    (comments : Option (List ObjId) := Option.none) (label : PyVal := PyVal.none) : Obj :=
  { mkExtract id_ name characteristics derivesFrom comments with
    tag := Tag.labeledExtract, label := label }

/-- Constructor `Process.__init__`: `prev_process`/`next_process` start as
`None` and `additional_properties` empty. In Python a `None`
`executes_protocol` is replaced by a freshly constructed `Protocol()`;
concrete heaps below model that by passing the id of an explicit protocol
object. -/
def mkProcess (id_ : String := "") (name : String := "")
    (executesProtocol : Option ObjId := Option.none) (date : PyVal := PyVal.none)
    (performer : PyVal := PyVal.none) (parameterValues : List PyVal := [])
    (inputs : List ObjId := []) (outputs : List ObjId := [])
    (comments : Option (List ObjId) := Option.none) : Obj :=
  { tag := Tag.process, id_ := id_, name := name, executesProtocol := executesProtocol,
    date := date, performer := performer, parameterValues := parameterValues,
    inputs := inputs, outputs := outputs, comments := comments }

/-- Constructor `Protocol.__init__`; its nested annotation and
parameter-list attributes are never observed by the verified components
and are elided. -/
def mkProtocol (id_ : String := "") (name : String := "")
    (comments : Option (List ObjId) := Option.none) : Obj :=
  { tag := Tag.protocol, id_ := id_, name := name, comments := comments }

/-- Constructor `DataFile.__init__(id_='', filename='', label='')`. -/
def mkDataFile (id_ : String := "") (filename : String := "") (label : String := "")
    (comments : Option (List ObjId) := Option.none) : Obj :=
  { tag := Tag.dataFile, id_ := id_, filename := filename,
    label := PyVal.str label, comments := comments }

/-- Constructor `Characteristic.__init__`: a `None` category or value
becomes a fresh empty `OntologyAnnotation` (inlined as `PyVal.annot`). -/
def mkCharacteristic (category : PyVal := PyVal.annot Option.none)
    (value : PyVal := PyVal.annot Option.none) (unit : PyVal := PyVal.none)
    (comments : Option (List ObjId) := Option.none) : Obj :=
  { tag := Tag.characteristic, category := category, value := value,
    unit := unit, comments := comments }

/-- Test `isinstance(x, (Sample, Material))` — the material test of
`batch_create_assays`; `Source` is not included there. -/
def isSampleOrMaterial (o : Obj) : Bool :=
  match o.tag with
  | Tag.sample => true
  | Tag.material => true
  | Tag.extract => true
  | Tag.labeledExtract => true
  | _ => false

/-- Test `isinstance(x, (Source, Sample, Material))` — the guard of
`batch_create_materials`. -/
def isSourceSampleOrMaterial (o : Obj) : Bool :=
  match o.tag with
  | Tag.source => true
  | _ => isSampleOrMaterial o

/-- Test `isinstance(x, Process)`. -/
def isProcessObj (o : Obj) : Bool :=
  match o.tag with
  | Tag.process => true
  | _ => false

/-- Test `isinstance(x, DataFile)` at a heap id (an out-of-heap id is no
data file). -/
def isDataFileAt (h : Heap) (i : ObjId) : Bool :=
  match h[i]? with
  | some o => match o.tag with
    | Tag.dataFile => true
    | _ => false
  | Option.none => false

/-! ## Deep copy (`copy.deepcopy`) -/

/-- Fold a copier `f` over a list of object ids, threading the heap and
collecting the copies in order. -/
def copyFold (f : Heap → ObjId → Heap × ObjId) : Heap → List ObjId → Heap × List ObjId
  | h, [] => (h, [])
  | h, j :: js =>
    let r := f h j
    let rest := copyFold f r.1 js
    (rest.1, r.2 :: rest.2)

/-- Copy an optional object id with `f`. -/
def copyOptId (f : Heap → ObjId → Heap × ObjId) (h : Heap) (o : Option ObjId) :
    Heap × Option ObjId :=
  match o with
  | Option.none => (h, Option.none)
  | some j => ((f h j).1, some ((f h j).2))

/-- Copy an optional list of object ids with `f`. -/
def copyOptList (f : Heap → ObjId → Heap × ObjId) (h : Heap) (o : Option (List ObjId)) :
    Heap × Option (List ObjId) :=
  match o with
  | Option.none => (h, Option.none)
  | some js => ((copyFold f h js).1, some (copyFold f h js).2)

/-- Copy a `derives_from` value with `f`. -/
def copyRefVal (f : Heap → ObjId → Heap × ObjId) (h : Heap) (r : Ref) : Heap × Ref :=
  match r with
  | Ref.nil => (h, Ref.nil)
  | Ref.one j => ((f h j).1, Ref.one ((f h j).2))
  | Ref.many js => ((copyFold f h js).1, Ref.many ((copyFold f h js).2))

/-- Copy, with the copier `f`, every object-valued attribute of one
object, threading the heap, and return the copied record (not yet
allocated). The attribute order mirrors the order in which the class
constructors assign them. -/
def copyChildren (f : Heap → ObjId → Heap × ObjId) (h : Heap) (o : Obj) : Heap × Obj :=
  let r1 := copyOptList f h o.comments
  let r2 := copyFold f r1.1 o.characteristics
  let r3 := copyFold f r2.1 o.factorValues
  let r4 := copyRefVal f r3.1 o.derivesFrom
  let r5 := copyFold f r4.1 o.inputs
  let r6 := copyFold f r5.1 o.outputs
  let r7 := copyOptId f r6.1 o.prevProcess
  let r8 := copyOptId f r7.1 o.nextProcess
  let r9 := copyOptId f r8.1 o.executesProtocol
  (r9.1,
   { o with
     comments := r1.2,
     characteristics := r2.2,
     factorValues := r3.2,
     derivesFrom := r4.2,
     inputs := r5.2,
     outputs := r6.2,
     prevProcess := r7.2,
     nextProcess := r8.2,
     executesProtocol := r9.2 })

/-- Deep copy of the object graph reachable from `i`: copies every child
attribute first (threading the heap) and then appends the copied object,
whose id — the pre-append heap length — is returned. Fuel bounds the
recursion depth; callers pass `heap.length + 1`, enough for every
well-formed heap, and on exhausted fuel or a dangling id the original id
is returned un-copied (no verified input reaches either case). -/
def copyObj : Heap → Nat → ObjId → Heap × ObjId
  | h, 0, i => (h, i)
  | h, fuel + 1, i =>
    match h[i]? with
    | Option.none => (h, i)
    | some o =>
      let rc := copyChildren (fun hh j => copyObj hh fuel j) h o
      (rc.1 ++ [rc.2], rc.1.length)

/-- Deep copy of a Python list of objects (`deepcopy` applied to a list
argument): each element is copied in order. -/
def copyList (h : Heap) (fuel : Nat) (js : List ObjId) : Heap × List ObjId :=
  copyFold (fun hh j => copyObj hh fuel j) h js

/-! ## The assay-graph builder (`_build_assay_graph`, `v1.py` lines 23-38)

The builder walks the process sequence; per process it first adds the
forward edges (to each non-`DataFile` output, or else to `next_process`),
then the backward edges (from each input, or else from `prev_process`).
The graph is the accumulated edge set; `networkx.DiGraph` edge membership
is list membership here (re-adding an edge is idempotent in both). -/

/-- Edges contributed by the loop body of `_build_assay_graph` for one
process id. A non-`Process` object in the sequence would fail in Python
with `AttributeError`; every theorem below assumes the sequence holds
processes, which makes the dangling/non-process fallback `[]` unreachable. -/
def edgesOfProcess (h : Heap) (p : ObjId) : List (ObjId × ObjId) :=
  match h[p]? with
  | Option.none => []
  | some o =>
    (if o.nextProcess.isSome || !o.outputs.isEmpty then
      if !o.outputs.isEmpty then
        (o.outputs.filter (fun n => !isDataFileAt h n)).map (fun n => (p, n))
      else
        match o.nextProcess with
        | some np => [(p, np)]
        | Option.none => []
    else [])
    ++
    (if !o.inputs.isEmpty then
      o.inputs.map (fun i => (i, p))
    else
      match o.prevProcess with
      | some pp => [(pp, p)]
      | Option.none => [])

/-- The graph builder `_build_assay_graph(process_sequence)`: fold the
per-process edges over the sequence in order. -/
def build_assay_graph (h : Heap) (ps : List ObjId) : List (ObjId × ObjId) :=
  ps.foldl (fun G p => G ++ edgesOfProcess h p) []

theorem mem_foldl_edges (h : Heap) (ps : List ObjId) (acc : List (ObjId × ObjId))
    (e : ObjId × ObjId) :
    e ∈ ps.foldl (fun G p => G ++ edgesOfProcess h p) acc
      ↔ e ∈ acc ∨ ∃ p, p ∈ ps ∧ e ∈ edgesOfProcess h p := by
  induction ps generalizing acc with
  | nil => simp
  | cons q ps ih =>
    rw [List.foldl_cons, ih]
    constructor
    · rintro (he | he)
      · rcases List.mem_append.mp he with he | he
        · exact Or.inl he
        · exact Or.inr ⟨q, List.mem_cons_self q ps, he⟩
      · rcases he with ⟨p, hp, he⟩
        exact Or.inr ⟨p, List.mem_cons_of_mem q hp, he⟩
    · rintro (he | he)
      · exact Or.inl (List.mem_append.mpr (Or.inl he))
      · rcases he with ⟨p, hp, he⟩
        rcases List.mem_cons.mp hp with rfl | hp
        · exact Or.inl (List.mem_append.mpr (Or.inr he))
        · exact Or.inr ⟨p, hp, he⟩

theorem mem_build_assay_graph (h : Heap) (ps : List ObjId) (e : ObjId × ObjId) :
    e ∈ build_assay_graph h ps ↔ ∃ p, p ∈ ps ∧ e ∈ edgesOfProcess h p := by
  rw [build_assay_graph, mem_foldl_edges]
  simp

theorem edgesOfProcess_unfold (h : Heap) (q : ObjId) (qo : Obj)
    (hq : h[q]? = some qo) :
    edgesOfProcess h q =
      (if qo.nextProcess.isSome || !qo.outputs.isEmpty then
        if !qo.outputs.isEmpty then
          (qo.outputs.filter (fun n => !isDataFileAt h n)).map (fun n => (q, n))
        else
          match qo.nextProcess with
          | some np => [(q, np)]
          | Option.none => []
      else [])
      ++
      (if !qo.inputs.isEmpty then
        qo.inputs.map (fun i => (i, q))
      else
        match qo.prevProcess with
        | some pp => [(pp, q)]
        | Option.none => []) := by
  rw [edgesOfProcess, hq]

theorem edgesOfProcess_elim (h : Heap) (q : ObjId) (qo : Obj)
    (hq : h[q]? = some qo) (e : ObjId × ObjId) (he : e ∈ edgesOfProcess h q) :
    (qo.outputs ≠ [] ∧ ∃ n, n ∈ qo.outputs ∧ isDataFileAt h n = false ∧ e = (q, n))
    ∨ (qo.outputs = [] ∧ ∃ np, qo.nextProcess = some np ∧ e = (q, np))
    ∨ (qo.inputs ≠ [] ∧ ∃ i, i ∈ qo.inputs ∧ e = (i, q))
    ∨ (qo.inputs = [] ∧ ∃ pp, qo.prevProcess = some pp ∧ e = (pp, q)) := by
  rw [edgesOfProcess_unfold h q qo hq] at he
  rcases List.mem_append.mp he with he | he
  · split at he
    · split at he
      · rename_i houts
        simp only [List.mem_map, List.mem_filter, Bool.not_eq_true'] at he
        obtain ⟨n, ⟨hn, hdf⟩, rfl⟩ := he
        refine Or.inl ⟨?_, n, hn, hdf, rfl⟩
        simpa [List.isEmpty_iff] using houts
      · rename_i houts
        split at he
        · rename_i np hnp
          rcases List.mem_singleton.mp he with rfl
          refine Or.inr (Or.inl ⟨?_, np, hnp, rfl⟩)
          simpa [List.isEmpty_iff] using houts
        · exact absurd he (List.not_mem_nil e)
    · exact absurd he (List.not_mem_nil e)
  · split at he
    · rename_i hins
      simp only [List.mem_map] at he
      obtain ⟨i, hi, rfl⟩ := he
      refine Or.inr (Or.inr (Or.inl ⟨?_, i, hi, rfl⟩))
      simpa [List.isEmpty_iff] using hins
    · rename_i hins
      split at he
      · rename_i pp hpp
        rcases List.mem_singleton.mp he with rfl
        refine Or.inr (Or.inr (Or.inr ⟨?_, pp, hpp, rfl⟩))
        simpa [List.isEmpty_iff] using hins
      · exact absurd he (List.not_mem_nil e)

theorem edgesOfProcess_output_mem (h : Heap) (q : ObjId) (qo : Obj)
    (hq : h[q]? = some qo) (n : ObjId) (hn : n ∈ qo.outputs)
    (hdf : isDataFileAt h n = false) :
    (q, n) ∈ edgesOfProcess h q := by
  have houts : qo.outputs ≠ [] := by
    intro hc
    rw [hc] at hn
    exact List.not_mem_nil n hn
  rw [edgesOfProcess_unfold h q qo hq]
  refine List.mem_append.mpr (Or.inl ?_)
  rw [if_pos, if_pos]
  · exact List.mem_map.mpr ⟨n, List.mem_filter.mpr ⟨hn, by simp [hdf]⟩, rfl⟩
  · simpa [List.isEmpty_iff] using houts
  · simp [List.isEmpty_iff, houts]

theorem edgesOfProcess_next_mem (h : Heap) (q : ObjId) (qo : Obj)
    (hq : h[q]? = some qo) (np : ObjId) (houts : qo.outputs = [])
    (hnp : qo.nextProcess = some np) :
    (q, np) ∈ edgesOfProcess h q := by
  rw [edgesOfProcess_unfold h q qo hq]
  refine List.mem_append.mpr (Or.inl ?_)
  rw [if_pos, if_neg]
  · rw [hnp]
    exact List.mem_singleton.mpr rfl
  · simp [houts]
  · simp [hnp]

theorem edgesOfProcess_input_mem (h : Heap) (q : ObjId) (qo : Obj)
    (hq : h[q]? = some qo) (i : ObjId) (hi : i ∈ qo.inputs) :
    (i, q) ∈ edgesOfProcess h q := by
  have hins : qo.inputs ≠ [] := by
    intro hc
    rw [hc] at hi
    exact List.not_mem_nil i hi
  rw [edgesOfProcess_unfold h q qo hq]
  refine List.mem_append.mpr (Or.inr ?_)
  rw [if_pos]
  · exact List.mem_map.mpr ⟨i, hi, rfl⟩
  · simpa [List.isEmpty_iff] using hins

theorem edgesOfProcess_prev_mem (h : Heap) (q : ObjId) (qo : Obj)
    (hq : h[q]? = some qo) (pp : ObjId) (hins : qo.inputs = [])
    (hpp : qo.prevProcess = some pp) :
    (pp, q) ∈ edgesOfProcess h q := by
  rw [edgesOfProcess_unfold h q qo hq]
  refine List.mem_append.mpr (Or.inr ?_)
  rw [if_neg]
  · rw [hpp]
    exact List.mem_singleton.mpr rfl
  · simp [hins]

/-- Attribute read `process.inputs` at a heap id (theorem-side view). -/
def inputsAt (h : Heap) (q : ObjId) : List ObjId :=
  match h[q]? with
  | some o => o.inputs
  | Option.none => []

/-- Attribute read `process.outputs` at a heap id. -/
def outputsAt (h : Heap) (q : ObjId) : List ObjId :=
  match h[q]? with
  | some o => o.outputs
  | Option.none => []

/-- Attribute read `process.prev_process` at a heap id. -/
def prevAt (h : Heap) (q : ObjId) : Option ObjId :=
  match h[q]? with
  | some o => o.prevProcess
  | Option.none => Option.none

/-- Attribute read `process.next_process` at a heap id. -/
def nextAt (h : Heap) (q : ObjId) : Option ObjId :=
  match h[q]? with
  | some o => o.nextProcess
  | Option.none => Option.none

/-- Heap id holding a `Process` instance. -/
def processAt (h : Heap) (q : ObjId) : Bool :=
  match h[q]? with
  | some o => isProcessObj o
  | Option.none => false

theorem processAt_elim (h : Heap) (q : ObjId) (hq : processAt h q = true) :
    ∃ qo, h[q]? = some qo ∧ isProcessObj qo = true := by
  unfold processAt at hq
  cases hqo : h[q]? with
  | none => rw [hqo] at hq; exact absurd hq (by simp)
  | some qo => rw [hqo] at hq; exact ⟨qo, rfl, hq⟩

theorem isDataFileAt_of_process (h : Heap) (q : ObjId) (qo : Obj)
    (hq : h[q]? = some qo) (hpr : isProcessObj qo = true) :
    isDataFileAt h q = false := by
  have htag : qo.tag = Tag.process := by
    unfold isProcessObj at hpr
    cases htag : qo.tag <;> rw [htag] at hpr <;> first | rfl | exact absurd hpr (by simp)
  simp [isDataFileAt, hq, htag]

theorem inputsAt_eq (h : Heap) (q : ObjId) (qo : Obj) (hq : h[q]? = some qo) :
    inputsAt h q = qo.inputs := by
  unfold inputsAt
  rw [hq]

theorem outputsAt_eq (h : Heap) (q : ObjId) (qo : Obj) (hq : h[q]? = some qo) :
    outputsAt h q = qo.outputs := by
  unfold outputsAt
  rw [hq]

theorem prevAt_eq (h : Heap) (q : ObjId) (qo : Obj) (hq : h[q]? = some qo) :
    prevAt h q = qo.prevProcess := by
  unfold prevAt
  rw [hq]

theorem nextAt_eq (h : Heap) (q : ObjId) (qo : Obj) (hq : h[q]? = some qo) :
    nextAt h q = qo.nextProcess := by
  unfold nextAt
  rw [hq]

/-- C3 (amended): in a process sequence of `Process` nodes, a process `p`
with non-empty `outputs` contributes an edge to each non-`DataFile`
output and none to a `DataFile` output; no edge `p → p.next_process`
exists provided no other rule re-adds that pair — `next_process` is not
among `p`'s outputs, `p` is listed as input of no process of the
sequence, and no inputs-less process of the sequence has `p` as its
`prev_process` — and a process with empty outputs and a set
`next_process` does get its single forward edge. -/
theorem build_graph_outputs_precedence
    (h : Heap) (ps : List ObjId) (p : ObjId) (po : Obj)
    (hmem : p ∈ ps)
    (hp : h[p]? = some po)
    (hproc : ∀ q ∈ ps, processAt h q = true)
    (houts : po.outputs ≠ []) :
    (∀ n ∈ po.outputs, isDataFileAt h n = false → (p, n) ∈ build_assay_graph h ps)
    ∧ (∀ n ∈ po.outputs, isDataFileAt h n = true → (p, n) ∉ build_assay_graph h ps)
    ∧ (∀ np, po.nextProcess = some np →
        (∀ q ∈ ps, p ∉ inputsAt h q) →
        (∀ q ∈ ps, inputsAt h q = [] → prevAt h q ≠ some p) →
        np ∉ po.outputs →
        (p, np) ∉ build_assay_graph h ps)
    ∧ (∀ p' ∈ ps, outputsAt h p' = [] → ∀ np', nextAt h p' = some np' →
        (p', np') ∈ build_assay_graph h ps) := by
  refine ⟨?_, ?_, ?_, ?_⟩
  · intro n hn hdf
    exact (mem_build_assay_graph h ps (p, n)).mpr
      ⟨p, hmem, edgesOfProcess_output_mem h p po hp n hn hdf⟩
  · intro n hn hdf hcontra
    obtain ⟨q, hqps, he⟩ := (mem_build_assay_graph h ps (p, n)).mp hcontra
    obtain ⟨qo, hqo, hqpr⟩ := processAt_elim h q (hproc q hqps)
    rcases edgesOfProcess_elim h q qo hqo _ he with
      ⟨_, m, hm, hmdf, heq⟩ | ⟨ho0, _, _, heq⟩ | ⟨_, i, _, heq⟩ | ⟨_, pp, _, heq⟩
    · rw [Prod.mk.injEq] at heq
      obtain ⟨rfl, rfl⟩ := heq
      rw [hdf] at hmdf
      exact absurd hmdf (by simp)
    · rw [Prod.mk.injEq] at heq
      obtain ⟨rfl, _⟩ := heq
      rw [hp] at hqo
      cases hqo
      exact houts ho0
    · rw [Prod.mk.injEq] at heq
      rw [heq.2] at hdf
      rw [isDataFileAt_of_process h q qo hqo hqpr] at hdf
      exact absurd hdf (by simp)
    · rw [Prod.mk.injEq] at heq
      rw [heq.2] at hdf
      rw [isDataFileAt_of_process h q qo hqo hqpr] at hdf
      exact absurd hdf (by simp)
  · intro np hnp hins hprev hnpout hcontra
    obtain ⟨q, hqps, he⟩ := (mem_build_assay_graph h ps (p, np)).mp hcontra
    obtain ⟨qo, hqo, _⟩ := processAt_elim h q (hproc q hqps)
    rcases edgesOfProcess_elim h q qo hqo _ he with
      ⟨_, m, hm, _, heq⟩ | ⟨ho0, _, _, heq⟩ | ⟨_, i, hi, heq⟩ | ⟨hi0, pp, hpp, heq⟩
    · rw [Prod.mk.injEq] at heq
      obtain ⟨rfl, rfl⟩ := heq
      rw [hp] at hqo
      cases hqo
      exact hnpout hm
    · rw [Prod.mk.injEq] at heq
      obtain ⟨rfl, _⟩ := heq
      rw [hp] at hqo
      cases hqo
      exact houts ho0
    · rw [Prod.mk.injEq] at heq
      obtain ⟨rfl, _⟩ := heq
      exact hins q hqps (by rw [inputsAt_eq h q qo hqo]; exact hi)
    · rw [Prod.mk.injEq] at heq
      obtain ⟨rfl, _⟩ := heq
      exact hprev q hqps (by rw [inputsAt_eq h q qo hqo]; exact hi0)
        (by rw [prevAt_eq h q qo hqo]; exact hpp)
  · intro p' hp'ps ho0 np' hnp'
    obtain ⟨po', hpo', _⟩ := processAt_elim h p' (hproc p' hp'ps)
    rw [outputsAt_eq h p' po' hpo'] at ho0
    rw [nextAt_eq h p' po' hpo'] at hnp'
    exact (mem_build_assay_graph h ps (p', np')).mpr
      ⟨p', hp'ps, edgesOfProcess_next_mem h p' po' hpo' np' ho0 hnp'⟩

/-- C4 (amended): in a process sequence of `Process` nodes, a process `p`
with non-empty `inputs` gets an edge from each input; no edge
`p.prev_process → p` exists provided no other rule re-adds that pair —
`prev_process` is not among `p`'s inputs, `p` is listed as output of no
process of the sequence, and no outputs-less process of the sequence has
`p` as its `next_process` — and a process with empty inputs and a set
`prev_process` does get its single backward edge. -/
theorem build_graph_inputs_precedence
    (h : Heap) (ps : List ObjId) (p : ObjId) (po : Obj)
    (hmem : p ∈ ps)
    (hp : h[p]? = some po)
    (hproc : ∀ q ∈ ps, processAt h q = true) :
    (∀ i ∈ po.inputs, (i, p) ∈ build_assay_graph h ps)
    ∧ (po.inputs ≠ [] → ∀ pp, po.prevProcess = some pp →
        (∀ q ∈ ps, p ∉ outputsAt h q) →
        (∀ q ∈ ps, outputsAt h q = [] → nextAt h q ≠ some p) →
        pp ∉ po.inputs →
        (pp, p) ∉ build_assay_graph h ps)
    ∧ (po.inputs = [] → ∀ pp, po.prevProcess = some pp →
        (pp, p) ∈ build_assay_graph h ps) := by
  refine ⟨?_, ?_, ?_⟩
  · intro i hi
    exact (mem_build_assay_graph h ps (i, p)).mpr
      ⟨p, hmem, edgesOfProcess_input_mem h p po hp i hi⟩
  · intro hinne pp hpp houtp hnext hppin hcontra
    obtain ⟨q, hqps, he⟩ := (mem_build_assay_graph h ps (pp, p)).mp hcontra
    obtain ⟨qo, hqo, _⟩ := processAt_elim h q (hproc q hqps)
    rcases edgesOfProcess_elim h q qo hqo _ he with
      ⟨_, n, hn, _, heq⟩ | ⟨ho0, np', hnp', heq⟩ | ⟨_, i, hi, heq⟩ | ⟨hi0, _, _, heq⟩
    · rw [Prod.mk.injEq] at heq
      refine houtp q hqps ?_
      rw [outputsAt_eq h q qo hqo, heq.2]
      exact hn
    · rw [Prod.mk.injEq] at heq
      refine hnext q hqps (by rw [outputsAt_eq h q qo hqo]; exact ho0) ?_
      rw [nextAt_eq h q qo hqo, hnp', heq.2]
    · rw [Prod.mk.injEq] at heq
      rw [← heq.2] at hqo
      rw [hp] at hqo
      cases hqo
      refine hppin ?_
      rw [heq.1]
      exact hi
    · rw [Prod.mk.injEq] at heq
      rw [← heq.2] at hqo
      rw [hp] at hqo
      cases hqo
      exact hinne hi0
  · intro hi0 pp hpp
    exact (mem_build_assay_graph h ps (pp, p)).mpr
      ⟨p, hmem, edgesOfProcess_prev_mem h p po hp pp hi0 hpp⟩

/-- Material node of the graph counterexamples. -/
def ceMaterial : Obj := mkMaterial "" "m"

/-- Process `p` of the C3 counterexample: non-empty outputs and a set
`next_process` (modelling client code `p.next_process = q`). -/
def ceOutP : Obj := { mkProcess "" "p" with
  outputs := [0], nextProcess := some 2 }

/-- Process `q` of the C3 counterexample: empty inputs with
`q.prev_process = p`, the usual doubly-linked chain shape. -/
def ceOutQ : Obj := { mkProcess "" "q" with
  prevProcess := some 1 }

/-- Heap of the C3 counterexample. -/
def ceOutHeap : Heap := [ceMaterial, ceOutP, ceOutQ]

/-- C3 counterexample: in the two-process doubly-linked sequence, process
`1` has non-empty `outputs` and `next_process = 2`, yet the edge
`(1, 2) = p → p.next_process` is in the resulting graph (added by process
`2`'s backward rule, because its inputs are empty and its `prev_process`
is process `1`). This falsifies the claim that the graph contains no edge
`p → p.next_process` whenever `p.outputs` is non-empty. -/
theorem build_graph_next_edge_counterexample :
    ceOutHeap[1]? = some ceOutP
    ∧ processAt ceOutHeap 1 = true
    ∧ processAt ceOutHeap 2 = true
    ∧ ceOutP.outputs ≠ []
    ∧ ceOutP.nextProcess = some 2
    ∧ (1, 2) ∈ build_assay_graph ceOutHeap [1, 2] := by
  decide

/-- Process `q` of the C4 counterexample: empty outputs with
`q.next_process = p`. -/
def ceInQ : Obj := { mkProcess "" "q" with
  nextProcess := some 2 }

/-- Process `p` of the C4 counterexample: non-empty inputs with
`p.prev_process = q`. -/
def ceInP : Obj := { mkProcess "" "p" with
  inputs := [0], prevProcess := some 1 }

/-- Heap of the C4 counterexample. -/
def ceInHeap : Heap := [ceMaterial, ceInQ, ceInP]

/-- C4 counterexample: process `2` has non-empty `inputs` and
`prev_process = 1`, yet the edge `(1, 2) = p.prev_process → p` is in the
resulting graph (added by process `1`'s forward rule, because its outputs
are empty and its `next_process` is process `2`). This falsifies the
claim that non-empty `inputs` imply no `prev_process → p` edge in the
graph. -/
theorem build_graph_prev_edge_counterexample :
    ceInHeap[2]? = some ceInP
    ∧ processAt ceInHeap 1 = true
    ∧ processAt ceInHeap 2 = true
    ∧ ceInP.inputs ≠ []
    ∧ ceInP.prevProcess = some 1
    ∧ (1, 2) ∈ build_assay_graph ceInHeap [1, 2] := by
  decide

/-- Material, data file and two processes of the well-formed witness
chain: process `2` outputs material `0` and data file `1` and is linked
forward to process `3`, which consumes material `0`. -/
def wfMaterial : Obj := mkMaterial "" "m"

/-- Data file node of the witness heap. -/
def wfDataFile : Obj := mkDataFile "" "f.txt" ""

/-- First process of the witness heap. -/
def wfP : Obj := { mkProcess "" "p" with
  outputs := [0, 1], nextProcess := some 3 }

/-- Second process of the witness heap. -/
def wfQ : Obj := { mkProcess "" "q" with
  inputs := [0], prevProcess := some 2 }

/-- Witness heap: a doubly-linked two-process chain in which both
precedence laws hold because the second process has explicit inputs. -/
def wfHeap : Heap := [wfMaterial, wfDataFile, wfP, wfQ]

/-- C3 witness: the amended outputs-precedence theorem applied to the
concrete witness chain — the material output edge is present, the
data-file output edge and the `next_process` edge are absent. -/
theorem build_graph_outputs_precedence_witness :
    (2, 0) ∈ build_assay_graph wfHeap [2, 3]
    ∧ (2, 1) ∉ build_assay_graph wfHeap [2, 3]
    ∧ (2, 3) ∉ build_assay_graph wfHeap [2, 3] := by
  have T := build_graph_outputs_precedence wfHeap [2, 3] 2 wfP
    (by decide) (by decide) (by decide) (by decide)
  exact ⟨T.1 0 (by decide) (by decide),
    T.2.1 1 (by decide) (by decide),
    T.2.2.1 3 (by decide) (by decide) (by decide) (by decide)⟩

/-- C4 witness: the amended inputs-precedence theorem applied to the
concrete witness chain — the input edge is present and the
`prev_process` edge is absent. -/
theorem build_graph_inputs_precedence_witness :
    (0, 3) ∈ build_assay_graph wfHeap [2, 3]
    ∧ (2, 3) ∉ build_assay_graph wfHeap [2, 3] := by
  have T := build_graph_inputs_precedence wfHeap [2, 3] 3 wfQ
    (by decide) (by decide) (by decide)
  exact ⟨T.1 0 (by decide),
    T.2.1 (by decide) 2 (by decide) (by decide) (by decide) (by decide)⟩

/-! ## Batch generators (`batch_create_materials`, `batch_create_assays`,
`v1.py` lines 761-888)

Arguments of the batch functions are Python values: a single object, a
Python list of objects, or `None`. -/

/-- One positional argument of a batch function. -/
inductive ArgV where
  | pynone
  | obj (i : ObjId)
  | list (l : List ObjId)
deriving DecidableEq, Repr

/-- Attribute read `name` at a heap id. -/
def nameAt (h : Heap) (i : ObjId) : String :=
  match h[i]? with
  | some o => o.name
  | Option.none => ""

/-- Class tag at a heap id. -/
def tagAt (h : Heap) (i : ObjId) : Option Tag :=
  (h[i]?).map Obj.tag

/-- Attribute read `derives_from` at a heap id. -/
def derivesAt (h : Heap) (i : ObjId) : Ref :=
  match h[i]? with
  | some o => o.derivesFrom
  | Option.none => Ref.nil

/-- One iteration of `batch_create_materials`: deep-copy the prototype,
then `new_obj.name = '-'.join([material.name, str(x)])` — the name is
rebuilt from the prototype's (unchanged) name. -/
def bcmIter (h : Heap) (i : ObjId) (x : Nat) : Heap × ObjId :=
  let r := copyObj h (h.length + 1) i
  let nm := nameAt r.1 i ++ "-" ++ toString x
  match r.1[r.2]? with
  | some o => (r.1.set r.2 { o with name := nm }, r.2)
  | Option.none => (r.1, r.2)

/-- The copy loop `for x in range(n)` of `batch_create_materials`,
returning the heap and the collected list. -/
def bcmLoop (h : Heap) (i : ObjId) : Nat → Heap × List ObjId
  | 0 => (h, [])
  | n + 1 =>
    let acc := bcmLoop h i n
    let st := bcmIter acc.1 i n
    (st.1, acc.2 ++ [st.2])

/-- `batch_create_materials(material=None, n=1)`: if the prototype is a
`Source`, `Sample` or `Material` (any subclass), produce `n` renamed deep
copies; on any other argument fall through to returning the (empty)
accumulator list. Python's `range(n)` of a negative `n` is empty, so
`n : Nat` loses no behaviour. -/
def batch_create_materials (h : Heap) (material : ArgV) (n : Nat) : Heap × List ObjId :=
  match material with
  | ArgV.obj i =>
    match h[i]? with
    | some m => if isSourceSampleOrMaterial m then bcmLoop h i n else (h, [])
    | Option.none => (h, [])
  | _ => (h, [])

/-- Content of one sliding-window slot of `batch_create_assays`: a single
deep-copied node or a deep-copied Python list of nodes. -/
inductive SlotV where
  | single (i : ObjId)
  | multi (l : List ObjId)
deriving DecidableEq, Repr

/-- The running state of `batch_create_assays`: the result sequence and
the three window slots (`materialA`, `process`, `materialB`), all
initially `None` and — as in the source — never reset between replica
iterations. -/
structure BState where
  heap : Heap
  seq : List ObjId
  materialA : Option SlotV
  process : Option SlotV
  materialB : Option SlotV
deriving Repr

/-- Single-copy renaming `copy.name = '-'.join([copy.name, str(x)])`. -/
def renameSingle (h : Heap) (r : ObjId) (x : Nat) : Heap :=
  match h[r]? with
  | some o => h.set r { o with name := o.name ++ "-" ++ toString x }
  | Option.none => h

/-- One step of the list-copy renaming loop: the element gets
`'-'.join([copy.name, str(x), str(y)])` with `y` the running position,
then `y += 1`. -/
def renameStep (x : Nat) (acc : Heap × Nat) (r : ObjId) : Heap × Nat :=
  (match acc.1[r]? with
   | some o =>
     acc.1.set r { o with name := o.name ++ "-" ++ toString x ++ "-" ++ toString acc.2 }
   | Option.none => acc.1,
   acc.2 + 1)

/-- List-copy renaming loop over every copied element. -/
def renameMulti (h : Heap) (rs : List ObjId) (x : Nat) : Heap :=
  (rs.foldl (renameStep x) (h, 0)).1

/-- The Python value a slot assigns to `derives_from`: the single node or
the list itself. -/
def refOfSlot : SlotV → Ref
  | SlotV.single a => Ref.one a
  | SlotV.multi l => Ref.many l

/-- Assignment `node.derives_from = materialA` on one `materialB` node. -/
def setDerives (rf : Ref) (hh : Heap) (m : ObjId) : Heap :=
  match hh[m]? with
  | some mo => hh.set m { mo with derivesFrom := rf }
  | Option.none => hh

/-- Wire one process copy against the filled window: `inputs` gets
`materialA` (list-assign or append), `outputs` gets `materialB`
(list-assign or append), and every `materialB` node's `derives_from` is
set to `materialA`. -/
def wireProcess (h : Heap) (p : ObjId) (mA mB : SlotV) : Heap :=
  let h1 :=
    match h[p]? with
    | some o =>
      match mA with
      | SlotV.multi l => h.set p { o with inputs := l }
      | SlotV.single a => h.set p { o with inputs := o.inputs ++ [a] }
    | Option.none => h
  let h2 :=
    match h1[p]? with
    | some o =>
      match mB with
      | SlotV.multi l => h1.set p { o with outputs := l }
      | SlotV.single b => h1.set p { o with outputs := o.outputs ++ [b] }
    | Option.none => h1
  match mB with
  | SlotV.multi l => l.foldl (setDerives (refOfSlot mA)) h2
  | SlotV.single b => setDerives (refOfSlot mA) h2 b

/-- The `for p in process:` wiring loop of the list-process branch. -/
def wireAll (mA mB : SlotV) (h : Heap) (ps : List ObjId) : Heap :=
  ps.foldl (fun hh p => wireProcess hh p mA mB) h

/-- The `materialA is not None and materialB is not None and process is
not None` block: wire the window and slide it. When the process slot
holds a list, each process is wired but — exactly as in the source, where
the `process_sequence.append(process)` statement sits only in the
single-process branch — nothing is appended to the result sequence. -/
def fireTriple (st : BState) : BState :=
  match st.materialA, st.process, st.materialB with
  | some mA, some pr, some mB =>
    match pr with
    | SlotV.multi ps =>
      let h' := wireAll mA mB st.heap ps
      { heap := h', seq := st.seq,
        materialA := some mB, process := Option.none, materialB := Option.none }
    | SlotV.single p =>
      let h' := wireProcess st.heap p mA mB
      { heap := h', seq := st.seq ++ [p],
        materialA := some mB, process := Option.none, materialB := Option.none }
  | _, _, _ => st

/-- The `if isinstance(arg, list) and arg:` block: dispatch on the class
of the first element, deep-copy the list into the due slot and rename
each element with the `-x-y` suffix. -/
def stepListArg (x : Nat) (st : BState) (l : List ObjId) : BState :=
  match l with
  | [] => st
  | j :: _ =>
    match st.heap[j]? with
    | some o0 =>
      if isSampleOrMaterial o0 then
        match st.materialA with
        | Option.none =>
          let r := copyList st.heap (st.heap.length + 1) l
          { st with heap := renameMulti r.1 r.2 x, materialA := some (SlotV.multi r.2) }
        | some _ =>
          let r := copyList st.heap (st.heap.length + 1) l
          { st with heap := renameMulti r.1 r.2 x, materialB := some (SlotV.multi r.2) }
      else if isProcessObj o0 then
        let r := copyList st.heap (st.heap.length + 1) l
        { st with heap := renameMulti r.1 r.2 x, process := some (SlotV.multi r.2) }
      else st
    | Option.none => st

/-- The single-object `if isinstance(arg, (Sample, Material)): … elif
isinstance(arg, Process): …` block: deep-copy into the due slot (the
`materialA` slot fills first) and rename with the `-x` suffix. -/
def stepObjArg (x : Nat) (st : BState) (i : ObjId) : BState :=
  match st.heap[i]? with
  | some o =>
    if isSampleOrMaterial o then
      match st.materialA with
      | Option.none =>
        let r := copyObj st.heap (st.heap.length + 1) i
        { st with heap := renameSingle r.1 r.2 x, materialA := some (SlotV.single r.2) }
      | some _ =>
        let r := copyObj st.heap (st.heap.length + 1) i
        { st with heap := renameSingle r.1 r.2 x, materialB := some (SlotV.single r.2) }
    else if isProcessObj o then
      let r := copyObj st.heap (st.heap.length + 1) i
      { st with heap := renameSingle r.1 r.2 x, process := some (SlotV.single r.2) }
    else st
  | Option.none => st

/-- Body of the inner `for arg in args:` loop, one argument: the list
block, then the single-object block, then the window-completion check. -/
def processArg (x : Nat) (st : BState) (arg : ArgV) : BState :=
  fireTriple
    (match arg with
     | ArgV.list l => stepListArg x st l
     | ArgV.obj i => stepObjArg x st i
     | ArgV.pynone => st)

/-- The outer `for x in range(n)` loop of `batch_create_assays`. -/
def bcaRun (args : List ArgV) (st : BState) : Nat → BState
  | 0 => st
  | n + 1 => args.foldl (processArg n) (bcaRun args st n)

/-- `batch_create_assays(*args, n=1)`: run the replica loop from the
empty window and return the accumulated process sequence. -/
def batch_create_assays (h : Heap) (args : List ArgV) (n : Nat) : Heap × List ObjId :=
  let st := bcaRun args
    { heap := h, seq := [], materialA := Option.none,
      process := Option.none, materialB := Option.none } n
  (st.heap, st.seq)

/-- Prototype heap of the claim-C1/C2 scenario, in Python construction
order: `sample = Sample(name='sample')`; `process = Process(name='assay')`
(whose `__init__` allocates a fresh `Protocol()`); `material =
Material(name='material')`. -/
def protoHeap : Heap :=
  [mkSample "" "sample", mkProtocol "" "",
   mkProcess "" "assay" (some 1), mkMaterial "" "material"]

/-- C1: evaluation of `batch_create_assays(sample, process, material,
n=2)` on the prototype chain. The returned sequence has length 2 and
replica 0 (process id 6) is wired as the claim states: inputs hold the
sample copy `sample-0`, outputs hold the material copy `material-0`,
whose `derives_from` is that same sample copy. But replica 1 (process id
10) refutes the claim: because `materialA` is never reset between
replica iterations, its inputs hold the replica-0 *material* copy
`material-0` (id 7) instead of a sample copy named `sample-1`, and its
outputs hold a *sample* copy named `sample-1` (id 8) instead of a
material copy named `material-1`, with `derives_from` wired across the
replicas (`sample-1` derives from `material-0`). -/
theorem batch_create_assays_crossover_bug :
    (batch_create_assays protoHeap [ArgV.obj 0, ArgV.obj 2, ArgV.obj 3] 2).2 = [6, 10]
    ∧ (batch_create_assays protoHeap [ArgV.obj 0, ArgV.obj 2, ArgV.obj 3] 2).2.length = 2
    ∧ inputsAt (batch_create_assays protoHeap [ArgV.obj 0, ArgV.obj 2, ArgV.obj 3] 2).1 6 = [4]
    ∧ nameAt (batch_create_assays protoHeap [ArgV.obj 0, ArgV.obj 2, ArgV.obj 3] 2).1 4
        = "sample-0"
    ∧ tagAt (batch_create_assays protoHeap [ArgV.obj 0, ArgV.obj 2, ArgV.obj 3] 2).1 4
        = some Tag.sample
    ∧ outputsAt (batch_create_assays protoHeap [ArgV.obj 0, ArgV.obj 2, ArgV.obj 3] 2).1 6 = [7]
    ∧ nameAt (batch_create_assays protoHeap [ArgV.obj 0, ArgV.obj 2, ArgV.obj 3] 2).1 7
        = "material-0"
    ∧ tagAt (batch_create_assays protoHeap [ArgV.obj 0, ArgV.obj 2, ArgV.obj 3] 2).1 7
        = some Tag.material
    ∧ derivesAt (batch_create_assays protoHeap [ArgV.obj 0, ArgV.obj 2, ArgV.obj 3] 2).1 7
        = Ref.one 4
    ∧ inputsAt (batch_create_assays protoHeap [ArgV.obj 0, ArgV.obj 2, ArgV.obj 3] 2).1 10 = [7]
    ∧ outputsAt (batch_create_assays protoHeap [ArgV.obj 0, ArgV.obj 2, ArgV.obj 3] 2).1 10 = [8]
    ∧ nameAt (batch_create_assays protoHeap [ArgV.obj 0, ArgV.obj 2, ArgV.obj 3] 2).1 8
        = "sample-1"
    ∧ tagAt (batch_create_assays protoHeap [ArgV.obj 0, ArgV.obj 2, ArgV.obj 3] 2).1 8
        = some Tag.sample
    ∧ derivesAt (batch_create_assays protoHeap [ArgV.obj 0, ArgV.obj 2, ArgV.obj 3] 2).1 8
        = Ref.one 7 := by
  decide

/-- C2: evaluation of `batch_create_assays(sample, [process], material,
n=1)`. The single process of the prototype chain arrives as a
one-element Python list, so the window fires the list-process wiring
branch: the process copy (id 6, renamed `assay-0-0`) is fully wired —
inputs hold the sample copy, outputs the material copy, whose
`derives_from` points at the sample copy — yet the returned sequence is
empty, because the `process_sequence.append` statement sits only in the
single-process branch. -/
theorem batch_create_assays_list_process_dropped :
    (batch_create_assays protoHeap [ArgV.obj 0, ArgV.list [2], ArgV.obj 3] 1).2 = []
    ∧ tagAt (batch_create_assays protoHeap [ArgV.obj 0, ArgV.list [2], ArgV.obj 3] 1).1 6
        = some Tag.process
    ∧ nameAt (batch_create_assays protoHeap [ArgV.obj 0, ArgV.list [2], ArgV.obj 3] 1).1 6
        = "assay-0-0"
    ∧ inputsAt (batch_create_assays protoHeap [ArgV.obj 0, ArgV.list [2], ArgV.obj 3] 1).1 6
        = [4]
    ∧ nameAt (batch_create_assays protoHeap [ArgV.obj 0, ArgV.list [2], ArgV.obj 3] 1).1 4
        = "sample-0"
    ∧ outputsAt (batch_create_assays protoHeap [ArgV.obj 0, ArgV.list [2], ArgV.obj 3] 1).1 6
        = [7]
    ∧ nameAt (batch_create_assays protoHeap [ArgV.obj 0, ArgV.list [2], ArgV.obj 3] 1).1 7
        = "material-0"
    ∧ derivesAt (batch_create_assays protoHeap [ArgV.obj 0, ArgV.list [2], ArgV.obj 3] 1).1 7
        = Ref.one 4 := by
  decide

/-! ## Frame and freshness lemmas for the deep copy

`HeapLe h h'` says `h'` was obtained from `h` by allocations at the end
and mutations of freshly allocated objects only: every pre-existing
object is intact. -/

/-- The heap grew and every pre-existing id still resolves to the same
object. -/
def HeapLe (h h' : Heap) : Prop :=
  h.length ≤ h'.length ∧ ∀ j, j < h.length → h'[j]? = h[j]?

theorem HeapLe_refl (h : Heap) : HeapLe h h :=
  ⟨Nat.le_refl _, fun _ _ => rfl⟩

theorem HeapLe_trans {h1 h2 h3 : Heap} (a : HeapLe h1 h2) (b : HeapLe h2 h3) :
    HeapLe h1 h3 :=
  ⟨Nat.le_trans a.1 b.1, fun j hj => (b.2 j (Nat.lt_of_lt_of_le hj a.1)).trans (a.2 j hj)⟩

theorem HeapLe_append (h t : Heap) : HeapLe h (h ++ t) :=
  ⟨by simp, fun j hj => List.getElem?_append_left hj⟩

theorem HeapLe_set {h h' : Heap} (hle : HeapLe h h') {r : ObjId} (hr : h.length ≤ r)
    (o : Obj) : HeapLe h (h'.set r o) :=
  ⟨by simpa using hle.1,
   fun j hj => by
     rw [List.getElem?_set_ne (Nat.lt_of_lt_of_le hj hr).ne']
     exact hle.2 j hj⟩

theorem lookup_lt {h : Heap} {i : ObjId} {o : Obj} (hio : h[i]? = some o) :
    i < h.length := by
  rcases Nat.lt_or_ge i h.length with hlt | hge
  · exact hlt
  · rw [List.getElem?_eq_none_iff.mpr hge] at hio
    cases hio

theorem lookup_of_lt {h : Heap} {i : ObjId} (hi : i < h.length) :
    ∃ o, h[i]? = some o :=
  ⟨h[i], List.getElem?_eq_getElem hi⟩

theorem lookup_ge_of_none {h : Heap} {i : ObjId} (hio : h[i]? = Option.none) :
    h.length ≤ i :=
  List.getElem?_eq_none_iff.mp hio

/-! Lemmas about `copyFold` under assumptions on the element copier. -/

theorem copyFold_le {f : Heap → ObjId → Heap × ObjId}
    (hf : ∀ hh j, HeapLe hh (f hh j).1) :
    ∀ (js : List ObjId) (h : Heap), HeapLe h (copyFold f h js).1 := by
  intro js
  induction js with
  | nil => intro h; exact HeapLe_refl h
  | cons j js ih =>
    intro h
    exact HeapLe_trans (hf h j) (ih (f h j).1)

theorem copyFold_length {f : Heap → ObjId → Heap × ObjId} :
    ∀ (js : List ObjId) (h : Heap), (copyFold f h js).2.length = js.length := by
  intro js
  induction js with
  | nil => intro h; rfl
  | cons j js ih => intro h; simp [copyFold, ih]

theorem copyFold_roots_ge {f : Heap → ObjId → Heap × ObjId}
    (hf : ∀ hh j, HeapLe hh (f hh j).1)
    (hroot : ∀ hh j, hh.length ≤ (f hh j).2) :
    ∀ (js : List ObjId) (h : Heap) (r : ObjId),
      r ∈ (copyFold f h js).2 → h.length ≤ r := by
  intro js
  induction js with
  | nil => intro h r hr; cases hr
  | cons j js ih =>
    intro h r hr
    rcases List.mem_cons.mp (by simpa [copyFold] using hr) with rfl | hr
    · exact hroot h j
    · exact Nat.le_trans (hf h j).1 (ih (f h j).1 r hr)

theorem copyFold_roots_lt {f : Heap → ObjId → Heap × ObjId}
    (hf : ∀ hh j, HeapLe hh (f hh j).1)
    (hlt : ∀ hh j, j < hh.length → (f hh j).2 < (f hh j).1.length) :
    ∀ (js : List ObjId) (h : Heap), (∀ j ∈ js, j < h.length) →
      ∀ r ∈ (copyFold f h js).2, r < (copyFold f h js).1.length := by
  intro js
  induction js with
  | nil => intro h _ r hr; cases hr
  | cons j js ih =>
    intro h hv r hr
    have hfirst : (f h j).2 < (f h j).1.length := hlt h j (hv j (List.mem_cons_self j js))
    have hrest_le : HeapLe (f h j).1 (copyFold f (f h j).1 js).1 := copyFold_le hf js _
    rcases List.mem_cons.mp (by simpa [copyFold] using hr) with rfl | hr
    · have : (copyFold f h (j :: js)).1 = (copyFold f (f h j).1 js).1 := by
        simp [copyFold]
      rw [this]
      exact Nat.lt_of_lt_of_le hfirst hrest_le.1
    · have : (copyFold f h (j :: js)).1 = (copyFold f (f h j).1 js).1 := by
        simp [copyFold]
      rw [this]
      exact ih (f h j).1
        (fun j' hj' => Nat.lt_of_lt_of_le (hv j' (List.mem_cons_of_mem j hj')) (hf h j).1)
        r hr

/-! Frame lemmas for the option/ref child copiers. -/

theorem copyOptId_le {f : Heap → ObjId → Heap × ObjId}
    (hf : ∀ hh j, HeapLe hh (f hh j).1) (h : Heap) (o : Option ObjId) :
    HeapLe h (copyOptId f h o).1 := by
  cases o with
  | none => exact HeapLe_refl h
  | some j => exact hf h j

theorem copyOptList_le {f : Heap → ObjId → Heap × ObjId}
    (hf : ∀ hh j, HeapLe hh (f hh j).1) (h : Heap) (o : Option (List ObjId)) :
    HeapLe h (copyOptList f h o).1 := by
  cases o with
  | none => exact HeapLe_refl h
  | some js => exact copyFold_le hf js h

theorem copyRefVal_le {f : Heap → ObjId → Heap × ObjId}
    (hf : ∀ hh j, HeapLe hh (f hh j).1) (h : Heap) (r : Ref) :
    HeapLe h (copyRefVal f h r).1 := by
  cases r with
  | nil => exact HeapLe_refl h
  | one j => exact hf h j
  | many js => exact copyFold_le hf js h

/-! Frame and shape lemmas for `copyChildren` and `copyObj`. -/

theorem copyChildren_le {f : Heap → ObjId → Heap × ObjId}
    (hf : ∀ hh j, HeapLe hh (f hh j).1) (h : Heap) (o : Obj) :
    HeapLe h (copyChildren f h o).1 := by
  simp only [copyChildren]
  refine HeapLe_trans (copyOptList_le hf h o.comments) ?_
  refine HeapLe_trans (copyFold_le hf o.characteristics _) ?_
  refine HeapLe_trans (copyFold_le hf o.factorValues _) ?_
  refine HeapLe_trans (copyRefVal_le hf _ o.derivesFrom) ?_
  refine HeapLe_trans (copyFold_le hf o.inputs _) ?_
  refine HeapLe_trans (copyFold_le hf o.outputs _) ?_
  refine HeapLe_trans (copyOptId_le hf _ o.prevProcess) ?_
  refine HeapLe_trans (copyOptId_le hf _ o.nextProcess) ?_
  exact copyOptId_le hf _ o.executesProtocol

theorem copyChildren_chars_le {f : Heap → ObjId → Heap × ObjId}
    (hf : ∀ hh j, HeapLe hh (f hh j).1) (h : Heap) (o : Obj) :
    HeapLe (copyFold f (copyOptList f h o.comments).1 o.characteristics).1
      (copyChildren f h o).1 := by
  simp only [copyChildren]
  refine HeapLe_trans (copyFold_le hf o.factorValues _) ?_
  refine HeapLe_trans (copyRefVal_le hf _ o.derivesFrom) ?_
  refine HeapLe_trans (copyFold_le hf o.inputs _) ?_
  refine HeapLe_trans (copyFold_le hf o.outputs _) ?_
  refine HeapLe_trans (copyOptId_le hf _ o.prevProcess) ?_
  refine HeapLe_trans (copyOptId_le hf _ o.nextProcess) ?_
  exact copyOptId_le hf _ o.executesProtocol

theorem copyChildren_tag {f : Heap → ObjId → Heap × ObjId} (h : Heap) (o : Obj) :
    (copyChildren f h o).2.tag = o.tag := by
  simp [copyChildren]

theorem copyChildren_name {f : Heap → ObjId → Heap × ObjId} (h : Heap) (o : Obj) :
    (copyChildren f h o).2.name = o.name := by
  simp [copyChildren]

theorem copyChildren_chars {f : Heap → ObjId → Heap × ObjId} (h : Heap) (o : Obj) :
    (copyChildren f h o).2.characteristics
      = (copyFold f (copyOptList f h o.comments).1 o.characteristics).2 := by
  simp [copyChildren]

theorem copyChildren_chars_bounds {f : Heap → ObjId → Heap × ObjId}
    (hf : ∀ hh j, HeapLe hh (f hh j).1)
    (hroot : ∀ hh j, hh.length ≤ (f hh j).2)
    (hlt : ∀ hh j, j < hh.length → (f hh j).2 < (f hh j).1.length)
    (h : Heap) (o : Obj) (hv : ∀ c ∈ o.characteristics, c < h.length) :
    ∀ c ∈ (copyChildren f h o).2.characteristics,
      h.length ≤ c ∧ c < (copyChildren f h o).1.length := by
  intro c hc
  rw [copyChildren_chars] at hc
  have h1le : HeapLe h (copyOptList f h o.comments).1 := copyOptList_le hf h o.comments
  constructor
  · exact Nat.le_trans h1le.1
      (copyFold_roots_ge hf hroot o.characteristics _ c hc)
  · have hv' : ∀ j ∈ o.characteristics, j < (copyOptList f h o.comments).1.length :=
      fun j hj => Nat.lt_of_lt_of_le (hv j hj) h1le.1
    exact Nat.lt_of_lt_of_le
      (copyFold_roots_lt hf hlt o.characteristics _ hv' c hc)
      (copyChildren_chars_le hf h o).1

theorem copyObj_le : ∀ (fuel : Nat) (h : Heap) (i : ObjId),
    HeapLe h (copyObj h fuel i).1 := by
  intro fuel
  induction fuel with
  | zero => intro h i; exact HeapLe_refl h
  | succ fuel ih =>
    intro h i
    cases hio : h[i]? with
    | none => simp [copyObj, hio]; exact HeapLe_refl h
    | some o =>
      have hbody : (copyObj h (fuel + 1) i).1
          = (copyChildren (fun hh j => copyObj hh fuel j) h o).1
            ++ [(copyChildren (fun hh j => copyObj hh fuel j) h o).2] := by
        simp [copyObj, hio]
      rw [hbody]
      exact HeapLe_trans (copyChildren_le (fun hh j => ih hh j) h o)
        (HeapLe_append _ _)

theorem copyObj_root_ge (fuel : Nat) (h : Heap) (i : ObjId) (hfuel : 1 ≤ fuel) :
    h.length ≤ (copyObj h fuel i).2 := by
  cases fuel with
  | zero => cases hfuel
  | succ fuel =>
    cases hio : h[i]? with
    | none =>
      have : (copyObj h (fuel + 1) i).2 = i := by simp [copyObj, hio]
      rw [this]
      exact lookup_ge_of_none hio
    | some o =>
      have : (copyObj h (fuel + 1) i).2
          = (copyChildren (fun hh j => copyObj hh fuel j) h o).1.length := by
        simp [copyObj, hio]
      rw [this]
      exact (copyChildren_le (fun hh j => copyObj_le fuel hh j) h o).1

theorem copyObj_root_lt (fuel : Nat) (h : Heap) (i : ObjId) (hi : i < h.length) :
    (copyObj h (fuel + 1) i).2 < (copyObj h (fuel + 1) i).1.length := by
  obtain ⟨o, hio⟩ := lookup_of_lt hi
  have h1 : (copyObj h (fuel + 1) i).2
      = (copyChildren (fun hh j => copyObj hh fuel j) h o).1.length := by
    simp [copyObj, hio]
  have h2 : (copyObj h (fuel + 1) i).1
      = (copyChildren (fun hh j => copyObj hh fuel j) h o).1
        ++ [(copyChildren (fun hh j => copyObj hh fuel j) h o).2] := by
    simp [copyObj, hio]
  rw [h1, h2]
  simp

theorem copyObj_root_obj (fuel : Nat) (h : Heap) (i : ObjId) (o : Obj)
    (hio : h[i]? = some o) :
    ∃ o', (copyObj h (fuel + 1) i).1[(copyObj h (fuel + 1) i).2]? = some o'
      ∧ o'.tag = o.tag ∧ o'.name = o.name
      ∧ (1 ≤ fuel → (∀ c ∈ o.characteristics, c < h.length) →
          ∀ c ∈ o'.characteristics,
            h.length ≤ c ∧ c < (copyObj h (fuel + 1) i).1.length) := by
  have h1 : (copyObj h (fuel + 1) i).2
      = (copyChildren (fun hh j => copyObj hh fuel j) h o).1.length := by
    simp [copyObj, hio]
  have h2 : (copyObj h (fuel + 1) i).1
      = (copyChildren (fun hh j => copyObj hh fuel j) h o).1
        ++ [(copyChildren (fun hh j => copyObj hh fuel j) h o).2] := by
    simp [copyObj, hio]
  refine ⟨(copyChildren (fun hh j => copyObj hh fuel j) h o).2, ?_, ?_, ?_, ?_⟩
  · rw [h1, h2]
    exact List.getElem?_concat_length _ _
  · exact copyChildren_tag h o
  · exact copyChildren_name h o
  · intro hfuel hv c hc
    have hb := copyChildren_chars_bounds
      (fun hh j => copyObj_le fuel hh j)
      (fun hh j => copyObj_root_ge fuel hh j hfuel)
      (fun hh j hj => by
        cases fuel with
        | zero => cases hfuel
        | succ fuel' => exact copyObj_root_lt fuel' hh j hj)
      h o hv c hc
    refine ⟨hb.1, ?_⟩
    rw [h2]
    simpa using Nat.lt_succ_of_lt hb.2

/-! ## Specification of the `batch_create_materials` loop -/

theorem bcmIter_spec (h : Heap) (i : ObjId) (m : Obj) (x : Nat)
    (hi : h[i]? = some m) (hv : ∀ c ∈ m.characteristics, c < h.length) :
    HeapLe h (bcmIter h i x).1
    ∧ h.length ≤ (bcmIter h i x).2
    ∧ (bcmIter h i x).2 < (bcmIter h i x).1.length
    ∧ ∃ o', (bcmIter h i x).1[(bcmIter h i x).2]? = some o'
        ∧ o'.tag = m.tag
        ∧ o'.name = m.name ++ "-" ++ toString x
        ∧ (∀ c ∈ o'.characteristics, h.length ≤ c ∧ c < (bcmIter h i x).1.length) := by
  have hilt : i < h.length := lookup_lt hi
  have hfuel : 1 ≤ h.length := Nat.lt_of_le_of_lt (Nat.zero_le i) hilt
  obtain ⟨o', hlook, htag, hname, hchars⟩ :=
    copyObj_root_obj h.length h i m hi
  have hcle : HeapLe h (copyObj h (h.length + 1) i).1 := copyObj_le (h.length + 1) h i
  have hrge : h.length ≤ (copyObj h (h.length + 1) i).2 :=
    copyObj_root_ge (h.length + 1) h i (Nat.le_add_left 1 h.length)
  have hrlt : (copyObj h (h.length + 1) i).2 < (copyObj h (h.length + 1) i).1.length :=
    copyObj_root_lt h.length h i hilt
  have hcharsb := hchars hfuel hv
  have hni : nameAt (copyObj h (h.length + 1) i).1 i = m.name := by
    unfold nameAt
    rw [hcle.2 i hilt, hi]
  have hiter : bcmIter h i x
      = ((copyObj h (h.length + 1) i).1.set (copyObj h (h.length + 1) i).2
          { o' with name := nameAt (copyObj h (h.length + 1) i).1 i ++ "-" ++ toString x },
         (copyObj h (h.length + 1) i).2) := by
    simp only [bcmIter]
    rw [hlook]
  rw [hiter]
  refine ⟨HeapLe_set hcle hrge _, hrge, by simpa using hrlt, ?_⟩
  refine ⟨{ o' with name := nameAt (copyObj h (h.length + 1) i).1 i ++ "-" ++ toString x },
    ?_, by simpa using htag, by simp [hni], ?_⟩
  · exact List.getElem?_set_eq_of_lt _ hrlt
  · intro c hc
    have hb := hcharsb c (by simpa using hc)
    exact ⟨hb.1, by simpa using hb.2⟩

theorem bcmLoop_master (h : Heap) (i : ObjId) (m : Obj)
    (hi : h[i]? = some m) (hv : ∀ c ∈ m.characteristics, c < h.length) :
    ∀ n : Nat,
    HeapLe h (bcmLoop h i n).1
    ∧ (bcmLoop h i n).2.length = n
    ∧ (∀ k, k < n → ∃ r o', (bcmLoop h i n).2[k]? = some r
        ∧ h.length ≤ r ∧ r < (bcmLoop h i n).1.length
        ∧ (bcmLoop h i n).1[r]? = some o'
        ∧ o'.tag = m.tag
        ∧ o'.name = m.name ++ "-" ++ toString k
        ∧ (∀ c ∈ o'.characteristics, h.length ≤ c ∧ c < (bcmLoop h i n).1.length))
    ∧ (∀ k1 k2 r1 r2 o1 o2, k1 < k2 → k2 < n →
        (bcmLoop h i n).2[k1]? = some r1 → (bcmLoop h i n).2[k2]? = some r2 →
        (bcmLoop h i n).1[r1]? = some o1 → (bcmLoop h i n).1[r2]? = some o2 →
        ∀ a ∈ r1 :: o1.characteristics, ∀ b ∈ r2 :: o2.characteristics, a < b) := by
  intro n
  induction n with
  | zero =>
    exact ⟨HeapLe_refl h, rfl, fun k hk => absurd hk (by omega),
      fun k1 k2 _ _ _ _ _ hk2 => absurd hk2 (by omega)⟩
  | succ n ih =>
    obtain ⟨ih1, ih2, ih3, ih4⟩ := ih
    have hHi : (bcmLoop h i n).1[i]? = some m := by
      rw [ih1.2 i (lookup_lt hi)]
      exact hi
    have hvH : ∀ c ∈ m.characteristics, c < (bcmLoop h i n).1.length :=
      fun c hc => Nat.lt_of_lt_of_le (hv c hc) ih1.1
    obtain ⟨it1, it2, it3, o'new, itlook, ittag, itname, itchars⟩ :=
      bcmIter_spec (bcmLoop h i n).1 i m n hHi hvH
    have hstep : bcmLoop h i (n + 1)
        = ((bcmIter (bcmLoop h i n).1 i n).1,
           (bcmLoop h i n).2 ++ [(bcmIter (bcmLoop h i n).1 i n).2]) := rfl
    rw [hstep]
    have hlen1 : HeapLe h (bcmIter (bcmLoop h i n).1 i n).1 := HeapLe_trans ih1 it1
    refine ⟨hlen1, by simp [ih2], ?_, ?_⟩
    · intro k hk
      rcases Nat.lt_or_ge k n with hkn | hkn
      · obtain ⟨r, o', hL, hr1, hr2, hlook, htag, hname, hchars⟩ := ih3 k hkn
        refine ⟨r, o', ?_, hr1, Nat.lt_of_lt_of_le hr2 it1.1, ?_, htag, hname, ?_⟩
        · rw [List.getElem?_append_left (by omega)]
          exact hL
        · rw [it1.2 r hr2]
          exact hlook
        · intro c hc
          obtain ⟨hc1, hc2⟩ := hchars c hc
          exact ⟨hc1, Nat.lt_of_lt_of_le hc2 it1.1⟩
      · have hkeq : k = n := by omega
        rw [hkeq]
        refine ⟨(bcmIter (bcmLoop h i n).1 i n).2, o'new, ?_,
          Nat.le_trans ih1.1 it2, it3, itlook, ittag, itname, ?_⟩
        · have hcat := List.getElem?_concat_length
            (bcmLoop h i n).2 (bcmIter (bcmLoop h i n).1 i n).2
          rw [ih2] at hcat
          exact hcat
        · intro c hc
          obtain ⟨hc1, hc2⟩ := itchars c hc
          exact ⟨Nat.le_trans ih1.1 hc1, hc2⟩
    · intro k1 k2 r1 r2 o1 o2 hk12 hk2 hL1 hL2 hlook1 hlook2 a ha b hb
      rcases Nat.lt_or_ge k2 n with hk2n | hk2n
      · have hk1n : k1 < n := by omega
        rw [List.getElem?_append_left (by omega)] at hL1 hL2
        obtain ⟨r1', o1', hL1', hr1a, hr1b, hlook1', _⟩ := ih3 k1 hk1n
        obtain ⟨r2', o2', hL2', hr2a, hr2b, hlook2', _⟩ := ih3 k2 hk2n
        rw [hL1'] at hL1
        cases hL1
        rw [hL2'] at hL2
        cases hL2
        rw [it1.2 r1 hr1b, hlook1'] at hlook1
        cases hlook1
        rw [it1.2 r2 hr2b, hlook2'] at hlook2
        cases hlook2
        exact ih4 k1 k2 r1 r2 o1 o2 hk12 hk2n hL1' hL2' hlook1' hlook2' a ha b hb
      · have hk2eq : k2 = n := by omega
        rw [hk2eq] at hL2
        have hk1n : k1 < n := by omega
        rw [List.getElem?_append_left (by omega)] at hL1
        have hL2self : ((bcmLoop h i n).2 ++ [(bcmIter (bcmLoop h i n).1 i n).2])[n]?
            = some (bcmIter (bcmLoop h i n).1 i n).2 := by
          have hcat := List.getElem?_concat_length
            (bcmLoop h i n).2 (bcmIter (bcmLoop h i n).1 i n).2
          rw [ih2] at hcat
          exact hcat
        rw [hL2self] at hL2
        cases hL2
        rw [itlook] at hlook2
        cases hlook2
        obtain ⟨r1', o1', hL1', hr1a, hr1b, hlook1', _, _, hchars1⟩ := ih3 k1 hk1n
        rw [hL1'] at hL1
        cases hL1
        rw [it1.2 r1 hr1b, hlook1'] at hlook1
        cases hlook1
        have hb_ge : (bcmLoop h i n).1.length ≤ b := by
          rcases List.mem_cons.mp hb with rfl | hb'
          · exact it2
          · exact (itchars b hb').1
        have ha_lt : a < (bcmLoop h i n).1.length := by
          rcases List.mem_cons.mp ha with rfl | ha'
          · exact hr1b
          · exact (hchars1 a ha').2
        exact Nat.lt_of_lt_of_le ha_lt hb_ge

/-- C5: `batch_create_materials` on a `Source`/`Sample`/`Material`
prototype (any subclass tag) returns a list of length `n` whose `k`-th
element is a fresh object — distinct from the prototype and from every
other element — of the prototype's class, named
`prototype.name ++ "-" ++ k`. The hypothesis that the prototype's
`characteristics` reference live heap objects is automatic in Python,
where attributes can only hold real objects. -/
theorem batch_create_materials_spec
    (h : Heap) (i : ObjId) (n : Nat) (m : Obj)
    (hi : h[i]? = some m) (hm : isSourceSampleOrMaterial m = true)
    (hv : ∀ c ∈ m.characteristics, c < h.length) :
    (batch_create_materials h (ArgV.obj i) n).2.length = n
    ∧ (∀ k, k < n → ∃ r o',
        (batch_create_materials h (ArgV.obj i) n).2[k]? = some r
        ∧ (batch_create_materials h (ArgV.obj i) n).1[r]? = some o'
        ∧ o'.name = m.name ++ "-" ++ toString k
        ∧ o'.tag = m.tag
        ∧ r ≠ i)
    ∧ (batch_create_materials h (ArgV.obj i) n).2.Pairwise (fun a b => a ≠ b) := by
  have hbcm : batch_create_materials h (ArgV.obj i) n = bcmLoop h i n := by
    simp [batch_create_materials, hi, hm]
  obtain ⟨_, h2, h3, h4⟩ := bcmLoop_master h i m hi hv n
  rw [hbcm]
  have hilt : i < h.length := lookup_lt hi
  refine ⟨h2, ?_, ?_⟩
  · intro k hk
    obtain ⟨r, o', hL, hge, _, hlook, htag, hname, _⟩ := h3 k hk
    exact ⟨r, o', hL, hlook, hname, htag, (Nat.lt_of_lt_of_le hilt hge).ne'⟩
  · rw [List.pairwise_iff_getElem]
    intro a b ha hb hab
    have hL1 : (bcmLoop h i n).2[a]? = some ((bcmLoop h i n).2[a]) :=
      List.getElem?_eq_getElem ha
    have hL2 : (bcmLoop h i n).2[b]? = some ((bcmLoop h i n).2[b]) :=
      List.getElem?_eq_getElem hb
    obtain ⟨r1, o1, hL1', _, hr1b, hlook1, _⟩ := h3 a (by omega)
    obtain ⟨r2, o2, hL2', _, hr2b, hlook2, _⟩ := h3 b (by omega)
    rw [hL1'] at hL1
    cases hL1
    rw [hL2'] at hL2
    cases hL2
    have hlt := h4 a b _ _ o1 o2 hab (by omega) hL1' hL2' hlook1 hlook2
      _ (List.mem_cons_self _ _) _ (List.mem_cons_self _ _)
    exact Nat.ne_of_lt hlt

/-- Prototype heap for the C5 witness: a characteristic object and a
`Source(name='S')` carrying it. -/
def srcHeap : Heap := [mkCharacteristic, mkSource "" "S" [0]]

/-- C5 witness: `batch_create_materials(Source(name='S'), n=3)` — three
pairwise-distinct fresh copies, the third named `S-2`. -/
theorem batch_create_materials_spec_witness :
    (batch_create_materials srcHeap (ArgV.obj 1) 3).2.length = 3
    ∧ (∃ r o', (batch_create_materials srcHeap (ArgV.obj 1) 3).2[2]? = some r
        ∧ (batch_create_materials srcHeap (ArgV.obj 1) 3).1[r]? = some o'
        ∧ o'.name = (mkSource "" "S" [0]).name ++ "-" ++ toString 2
        ∧ o'.tag = (mkSource "" "S" [0]).tag
        ∧ r ≠ 1)
    ∧ (batch_create_materials srcHeap (ArgV.obj 1) 3).2.Pairwise (fun a b => a ≠ b) := by
  have T := batch_create_materials_spec srcHeap 1 3 (mkSource "" "S" [0])
    (by decide) (by decide) (by decide)
  exact ⟨T.1, T.2.1 2 (by decide), T.2.2⟩

/-- The guard `isinstance(material, (Source, Sample, Material))` of
`batch_create_materials`, as a test on the argument value. -/
def isMaterialInstance (h : Heap) (v : ArgV) : Bool :=
  match v with
  | ArgV.obj i =>
    match h[i]? with
    | some o => isSourceSampleOrMaterial o
    | Option.none => false
  | _ => false

/-- C7: on any argument that is not a `Source`/`Sample`/`Material`
instance (`None`, a `DataFile`, a `Process`, a list, …) and any `n`,
`batch_create_materials` returns the empty list, leaves the heap
untouched and raises nothing (the embedding is a total function into a
normal result). -/
theorem batch_create_materials_noop (h : Heap) (v : ArgV) (n : Nat)
    (hnm : isMaterialInstance h v = false) :
    batch_create_materials h v n = (h, []) := by
  cases v with
  | pynone => rfl
  | list l => rfl
  | obj i =>
    unfold isMaterialInstance at hnm
    unfold batch_create_materials
    cases hio : h[i]? with
    | none => simp [hio]
    | some o =>
      simp only [hio] at hnm
      simp [hio, hnm]

/-- Heap for the C7 witness: a single `DataFile`. -/
def dfHeap : Heap := [mkDataFile "" "f.txt" ""]

/-- C7 witness: a `DataFile` argument and a `None` argument both yield
the empty list with the heap unchanged. -/
theorem batch_create_materials_noop_witness :
    batch_create_materials dfHeap (ArgV.obj 0) 5 = (dfHeap, [])
    ∧ batch_create_materials dfHeap ArgV.pynone 3 = (dfHeap, []) :=
  ⟨batch_create_materials_noop dfHeap (ArgV.obj 0) 5 (by decide),
   batch_create_materials_noop dfHeap ArgV.pynone 3 (by decide)⟩

/-! ## Frame lemmas: batch creation never touches pre-existing objects -/

theorem bcmIter_le (h : Heap) (i : ObjId) (x : Nat) : HeapLe h (bcmIter h i x).1 := by
  have hcle : HeapLe h (copyObj h (h.length + 1) i).1 := copyObj_le (h.length + 1) h i
  have hrge : h.length ≤ (copyObj h (h.length + 1) i).2 :=
    copyObj_root_ge (h.length + 1) h i (Nat.le_add_left 1 h.length)
  unfold bcmIter
  cases hlook : (copyObj h (h.length + 1) i).1[(copyObj h (h.length + 1) i).2]? with
  | none => simpa [hlook] using hcle
  | some o => simpa [hlook] using HeapLe_set hcle hrge _

theorem bcmLoop_le (h : Heap) (i : ObjId) : ∀ n, HeapLe h (bcmLoop h i n).1 := by
  intro n
  induction n with
  | zero => exact HeapLe_refl h
  | succ n ih => exact HeapLe_trans ih (bcmIter_le (bcmLoop h i n).1 i n)

theorem batch_create_materials_le (h : Heap) (v : ArgV) (n : Nat) :
    HeapLe h (batch_create_materials h v n).1 := by
  cases v with
  | pynone => exact HeapLe_refl h
  | list l => exact HeapLe_refl h
  | obj i =>
    unfold batch_create_materials
    cases hio : h[i]? with
    | none => simp [hio]; exact HeapLe_refl h
    | some o =>
      by_cases hm : isSourceSampleOrMaterial o = true
      · simpa [hio, hm] using bcmLoop_le h i n
      · simp [hio, hm]
        exact HeapLe_refl h

/-- Object ids held in one window slot. -/
def slotIds : SlotV → List ObjId
  | SlotV.single i => [i]
  | SlotV.multi l => l

/-- Object ids held in an optional window slot. -/
def slotIdsOpt : Option SlotV → List ObjId
  | Option.none => []
  | some s => slotIds s

/-- Invariant of the `batch_create_assays` state relative to the initial
heap: the heap only grew (pre-existing objects intact) and every id held
in a window slot is a freshly allocated copy. -/
def stOk (h0 : Heap) (st : BState) : Prop :=
  HeapLe h0 st.heap
  ∧ (∀ r ∈ slotIdsOpt st.materialA, h0.length ≤ r)
  ∧ (∀ r ∈ slotIdsOpt st.process, h0.length ≤ r)
  ∧ (∀ r ∈ slotIdsOpt st.materialB, h0.length ≤ r)

theorem renameSingle_le {h0 h : Heap} (hle : HeapLe h0 h) {r : ObjId}
    (hr : h0.length ≤ r) (x : Nat) : HeapLe h0 (renameSingle h r x) := by
  unfold renameSingle
  cases hlook : h[r]? with
  | none => exact hle
  | some o => exact HeapLe_set hle hr _

theorem renameFold_le {h0 : Heap} (x : Nat) :
    ∀ (rs : List ObjId) (acc : Heap × Nat), HeapLe h0 acc.1 →
      (∀ r ∈ rs, h0.length ≤ r) → HeapLe h0 (rs.foldl (renameStep x) acc).1 := by
  intro rs
  induction rs with
  | nil => intro acc hacc _; exact hacc
  | cons r rs ih =>
    intro acc hacc hrs
    refine ih (renameStep x acc r) ?_ (fun r' hr' => hrs r' (List.mem_cons_of_mem r hr'))
    unfold renameStep
    cases hlook : acc.1[r]? with
    | none => exact hacc
    | some o => exact HeapLe_set hacc (hrs r (List.mem_cons_self r rs)) _

theorem renameMulti_le {h0 h : Heap} (hle : HeapLe h0 h) {rs : List ObjId}
    (hrs : ∀ r ∈ rs, h0.length ≤ r) (x : Nat) : HeapLe h0 (renameMulti h rs x) :=
  renameFold_le x rs (h, 0) hle hrs

theorem setDerives_le {h0 h : Heap} (hle : HeapLe h0 h) (rf : Ref) {m : ObjId}
    (hm : h0.length ≤ m) : HeapLe h0 (setDerives rf h m) := by
  unfold setDerives
  cases hlook : h[m]? with
  | none => exact hle
  | some o => exact HeapLe_set hle hm _

theorem wireProcess_le {h0 h : Heap} (hle : HeapLe h0 h) {p : ObjId}
    (hp : h0.length ≤ p) (mA : SlotV) {mB : SlotV}
    (hmB : ∀ r ∈ slotIds mB, h0.length ≤ r) :
    HeapLe h0 (wireProcess h p mA mB) := by
  unfold wireProcess
  have step1 : ∀ (hh : Heap), HeapLe h0 hh →
      HeapLe h0
        (match hh[p]? with
         | some o =>
           match mA with
           | SlotV.multi l => hh.set p { o with inputs := l }
           | SlotV.single a => hh.set p { o with inputs := o.inputs ++ [a] }
         | Option.none => hh) := by
    intro hh hhle
    cases hlook : hh[p]? with
    | none => exact hhle
    | some o => cases mA <;> exact HeapLe_set hhle hp _
  have step2 : ∀ (hh : Heap), HeapLe h0 hh →
      HeapLe h0
        (match hh[p]? with
         | some o =>
           match mB with
           | SlotV.multi l => hh.set p { o with outputs := l }
           | SlotV.single b => hh.set p { o with outputs := o.outputs ++ [b] }
         | Option.none => hh) := by
    intro hh hhle
    cases hlook : hh[p]? with
    | none => exact hhle
    | some o => cases mB <;> exact HeapLe_set hhle hp _
  have hfold : ∀ (l : List ObjId) (hh : Heap), HeapLe h0 hh →
      (∀ r ∈ l, h0.length ≤ r) → HeapLe h0 (l.foldl (setDerives (refOfSlot mA)) hh) := by
    intro l
    induction l with
    | nil => intro hh hhle _; exact hhle
    | cons m l ih =>
      intro hh hhle hl
      exact ih (setDerives (refOfSlot mA) hh m)
        (setDerives_le hhle _ (hl m (List.mem_cons_self m l)))
        (fun r hr => hl r (List.mem_cons_of_mem m hr))
  cases mB with
  | multi l =>
    exact hfold l _ (step2 _ (step1 h hle)) (by simpa [slotIds] using hmB)
  | single b =>
    exact setDerives_le (step2 _ (step1 h hle)) _ (by simpa [slotIds] using hmB)

theorem wireAll_le {h0 : Heap} (mA : SlotV) {mB : SlotV}
    (hmB : ∀ r ∈ slotIds mB, h0.length ≤ r) :
    ∀ (ps : List ObjId) (h : Heap), HeapLe h0 h → (∀ p ∈ ps, h0.length ≤ p) →
      HeapLe h0 (wireAll mA mB h ps) := by
  intro ps
  induction ps with
  | nil => intro h hle _; exact hle
  | cons p ps ih =>
    intro h hle hps
    exact ih (wireProcess h p mA mB)
      (wireProcess_le hle (hps p (List.mem_cons_self p ps)) mA hmB)
      (fun p' hp' => hps p' (List.mem_cons_of_mem p hp'))

theorem fireTriple_ok {h0 : Heap} {st : BState} (hok : stOk h0 st) :
    stOk h0 (fireTriple st) := by
  obtain ⟨hle, hA, hP, hB⟩ := hok
  unfold fireTriple
  cases hmA : st.materialA with
  | none => exact ⟨hle, by simpa [hmA] using hA, hP, hB⟩
  | some mA =>
    cases hpr : st.process with
    | none => exact ⟨hle, by simpa [hmA] using hA, by simpa [hpr] using hP, hB⟩
    | some pr =>
      cases hmB : st.materialB with
      | none =>
        exact ⟨hle, by simpa [hmA] using hA, by simpa [hpr] using hP, by simpa [hmB] using hB⟩
      | some mB =>
        have hA' : ∀ r ∈ slotIds mA, h0.length ≤ r := by
          intro r hr
          exact hA r (by simpa [hmA, slotIdsOpt] using hr)
        have hP' : ∀ r ∈ slotIds pr, h0.length ≤ r := by
          intro r hr
          exact hP r (by simpa [hpr, slotIdsOpt] using hr)
        have hB' : ∀ r ∈ slotIds mB, h0.length ≤ r := by
          intro r hr
          exact hB r (by simpa [hmB, slotIdsOpt] using hr)
        cases pr with
        | multi ps =>
          refine ⟨wireAll_le mA hB' ps st.heap hle ?_, ?_, ?_, ?_⟩
          · intro p hp
            exact hP' p (by simpa [slotIds] using hp)
          · simpa [slotIdsOpt] using hB'
          · simp [slotIdsOpt]
          · simp [slotIdsOpt]
        | single p =>
          refine ⟨wireProcess_le hle (hP' p (by simp [slotIds])) mA hB', ?_, ?_, ?_⟩
          · simpa [slotIdsOpt] using hB'
          · simp [slotIdsOpt]
          · simp [slotIdsOpt]

theorem stepObjArg_ok {h0 : Heap} {st : BState} (hok : stOk h0 st) (x : Nat) (i : ObjId) :
    stOk h0 (stepObjArg x st i) := by
  obtain ⟨hle, hA, hP, hB⟩ := hok
  have hfuel : 1 ≤ st.heap.length + 1 := Nat.le_add_left 1 st.heap.length
  have hcle : HeapLe h0 (copyObj st.heap (st.heap.length + 1) i).1 :=
    HeapLe_trans hle (copyObj_le (st.heap.length + 1) st.heap i)
  have hrge : h0.length ≤ (copyObj st.heap (st.heap.length + 1) i).2 :=
    Nat.le_trans hle.1 (copyObj_root_ge (st.heap.length + 1) st.heap i hfuel)
  have hren : HeapLe h0
      (renameSingle (copyObj st.heap (st.heap.length + 1) i).1
        (copyObj st.heap (st.heap.length + 1) i).2 x) :=
    renameSingle_le hcle hrge x
  unfold stepObjArg
  cases hlook : st.heap[i]? with
  | none => exact ⟨hle, hA, hP, hB⟩
  | some o =>
    by_cases hsm : isSampleOrMaterial o = true
    · cases hmA : st.materialA with
      | none =>
        simp only [hsm, if_true, hmA]
        refine ⟨hren, ?_, hP, hB⟩
        intro r hr
        rw [show r = (copyObj st.heap (st.heap.length + 1) i).2 by
          simpa [slotIdsOpt, slotIds] using hr]
        exact hrge
      | some sA =>
        simp only [hsm, if_true, hmA]
        refine ⟨hren, by simpa [hmA] using hA, hP, ?_⟩
        intro r hr
        rw [show r = (copyObj st.heap (st.heap.length + 1) i).2 by
          simpa [slotIdsOpt, slotIds] using hr]
        exact hrge
    · by_cases hpo : isProcessObj o = true
      · simp only [hsm, if_false, hpo, if_true]
        refine ⟨hren, hA, ?_, hB⟩
        intro r hr
        rw [show r = (copyObj st.heap (st.heap.length + 1) i).2 by
          simpa [slotIdsOpt, slotIds] using hr]
        exact hrge
      · simp only [hsm, hpo, if_false]
        exact ⟨hle, hA, hP, hB⟩

theorem copyList_le (h : Heap) (fuel : Nat) (js : List ObjId) :
    HeapLe h (copyList h fuel js).1 :=
  copyFold_le (fun hh j => copyObj_le fuel hh j) js h

theorem copyList_roots_ge (h : Heap) (fuel : Nat) (hfuel : 1 ≤ fuel)
    (js : List ObjId) : ∀ r ∈ (copyList h fuel js).2, h.length ≤ r :=
  copyFold_roots_ge (fun hh j => copyObj_le fuel hh j)
    (fun hh j => copyObj_root_ge fuel hh j hfuel) js h

theorem stepListArg_ok {h0 : Heap} {st : BState} (hok : stOk h0 st) (x : Nat)
    (l : List ObjId) : stOk h0 (stepListArg x st l) := by
  obtain ⟨hle, hA, hP, hB⟩ := hok
  have hfuel : 1 ≤ st.heap.length + 1 := Nat.le_add_left 1 st.heap.length
  have hcle : HeapLe h0 (copyList st.heap (st.heap.length + 1) l).1 :=
    HeapLe_trans hle (copyList_le st.heap (st.heap.length + 1) l)
  have hroots : ∀ r ∈ (copyList st.heap (st.heap.length + 1) l).2, h0.length ≤ r :=
    fun r hr =>
      Nat.le_trans hle.1 (copyList_roots_ge st.heap (st.heap.length + 1) hfuel l r hr)
  have hren : HeapLe h0
      (renameMulti (copyList st.heap (st.heap.length + 1) l).1
        (copyList st.heap (st.heap.length + 1) l).2 x) :=
    renameMulti_le hcle hroots x
  cases l with
  | nil => exact ⟨hle, hA, hP, hB⟩
  | cons j l' =>
    simp only [stepListArg]
    cases hlook : st.heap[j]? with
    | none => exact ⟨hle, hA, hP, hB⟩
    | some o0 =>
      by_cases hsm : isSampleOrMaterial o0 = true
      · cases hmA : st.materialA with
        | none =>
          simp only [hsm, if_true, hmA]
          exact ⟨hren, by simpa [slotIdsOpt, slotIds] using hroots, hP, hB⟩
        | some sA =>
          simp only [hsm, if_true, hmA]
          exact ⟨hren, by simpa [hmA] using hA, hP,
            by simpa [slotIdsOpt, slotIds] using hroots⟩
      · by_cases hpo : isProcessObj o0 = true
        · simp only [hsm, if_false, hpo, if_true]
          exact ⟨hren, hA, by simpa [slotIdsOpt, slotIds] using hroots, hB⟩
        · simp only [hsm, hpo, if_false]
          exact ⟨hle, hA, hP, hB⟩

theorem processArg_ok {h0 : Heap} {st : BState} (hok : stOk h0 st) (x : Nat)
    (arg : ArgV) : stOk h0 (processArg x st arg) := by
  unfold processArg
  cases arg with
  | pynone => exact fireTriple_ok hok
  | obj i => exact fireTriple_ok (stepObjArg_ok hok x i)
  | list l => exact fireTriple_ok (stepListArg_ok hok x l)

theorem foldArgs_ok {h0 : Heap} (x : Nat) :
    ∀ (args : List ArgV) (st : BState), stOk h0 st →
      stOk h0 (args.foldl (processArg x) st) := by
  intro args
  induction args with
  | nil => intro st hok; exact hok
  | cons a args ih =>
    intro st hok
    exact ih (processArg x st a) (processArg_ok hok x a)

theorem bcaRun_ok {h0 : Heap} (args : List ArgV) (st : BState) (hok : stOk h0 st) :
    ∀ n, stOk h0 (bcaRun args st n) := by
  intro n
  induction n with
  | zero => exact hok
  | succ n ih => exact foldArgs_ok n args (bcaRun args st n) ih

theorem batch_create_assays_le (h : Heap) (args : List ArgV) (n : Nat) :
    HeapLe h (batch_create_assays h args n).1 := by
  have hok : stOk h
      { heap := h, seq := [], materialA := Option.none,
        process := Option.none, materialB := Option.none } :=
    ⟨HeapLe_refl h, by simp [slotIdsOpt], by simp [slotIdsOpt], by simp [slotIdsOpt]⟩
  exact (bcaRun_ok args _ hok n).1

theorem batch_create_materials_isolation
    (h : Heap) (i : ObjId) (n : Nat) (m : Obj)
    (hi : h[i]? = some m) (hm : isSourceSampleOrMaterial m = true)
    (hv : ∀ c ∈ m.characteristics, c < h.length)
    (k1 k2 : Nat) (r1 r2 : ObjId) (o1 o2 : Obj)
    (hk1 : k1 < n) (hk2 : k2 < n) (hne : k1 ≠ k2)
    (hL1 : (batch_create_materials h (ArgV.obj i) n).2[k1]? = some r1)
    (hL2 : (batch_create_materials h (ArgV.obj i) n).2[k2]? = some r2)
    (hlook1 : (batch_create_materials h (ArgV.obj i) n).1[r1]? = some o1)
    (hlook2 : (batch_create_materials h (ArgV.obj i) n).1[r2]? = some o2) :
    ∀ c ∈ o1.characteristics,
      c ∉ o2.characteristics ∧ c ≠ r2 ∧ c ∉ m.characteristics ∧ c ≠ i
      ∧ ∀ (v : Obj) (j : ObjId),
          (j ∈ o2.characteristics ∨ j ∈ m.characteristics ∨ j = i) →
          ((batch_create_materials h (ArgV.obj i) n).1.set c v)[j]?
            = (batch_create_materials h (ArgV.obj i) n).1[j]? := by
  have hbcm : batch_create_materials h (ArgV.obj i) n = bcmLoop h i n := by
    simp [batch_create_materials, hi, hm]
  rw [hbcm] at hL1 hL2 hlook1 hlook2 ⊢
  obtain ⟨_, _, h3, h4⟩ := bcmLoop_master h i m hi hv n
  have hilt : i < h.length := lookup_lt hi
  obtain ⟨r1', o1', hL1', hr1a, hr1b, hlook1', _, _, hchars1⟩ := h3 k1 hk1
  obtain ⟨r2', o2', hL2', hr2a, hr2b, hlook2', _, _, hchars2⟩ := h3 k2 hk2
  rw [hL1'] at hL1
  cases hL1
  rw [hL2'] at hL2
  cases hL2
  rw [hlook1'] at hlook1
  cases hlook1
  rw [hlook2'] at hlook2
  cases hlook2
  intro c hc
  have hcge : h.length ≤ c := (hchars1 c hc).1
  have hsep : c ∉ o2.characteristics ∧ c ≠ r2 := by
    rcases Nat.lt_or_ge k1 k2 with hk12 | hk21
    · have hspan := h4 k1 k2 r1 r2 o1 o2 hk12 hk2 hL1' hL2' hlook1' hlook2'
        c (List.mem_cons_of_mem r1 hc)
      constructor
      · intro hcin
        exact absurd (hspan c (List.mem_cons_of_mem r2 hcin)) (Nat.lt_irrefl c)
      · exact Nat.ne_of_lt (hspan r2 (List.mem_cons_self r2 _))
    · have hk21' : k2 < k1 := by omega
      have hspan := h4 k2 k1 r2 r1 o2 o1 hk21' hk1 hL2' hL1' hlook2' hlook1'
      constructor
      · intro hcin
        exact absurd (hspan c (List.mem_cons_of_mem r2 hcin) c
          (List.mem_cons_of_mem r1 hc)) (Nat.lt_irrefl c)
      · exact (hspan r2 (List.mem_cons_self r2 _) c (List.mem_cons_of_mem r1 hc)).ne'
  have hcm : c ∉ m.characteristics := by
    intro hcin
    exact absurd (hv c hcin) (Nat.not_lt.mpr hcge)
  have hci : c ≠ i := (Nat.lt_of_lt_of_le hilt hcge).ne'
  refine ⟨hsep.1, hsep.2, hcm, hci, ?_⟩
  intro v j hj
  have hcj : c ≠ j := by
    rcases hj with hj | hj | hj
    · intro hccj
      rw [hccj] at hsep
      exact hsep.1 hj
    · intro hccj
      rw [hccj] at hcm
      exact hcm hj
    · rw [hj]
      exact hci
  exact List.getElem?_set_ne hcj

/-- C6: batch creation never mutates its prototype arguments and deep
copies are isolated. First conjunct: after any `batch_create_materials`
call the heap only grew — every pre-existing object (its name,
characteristics list, `derives_from`, `inputs`, `outputs`) is unchanged.
Second conjunct: the same for any `batch_create_assays` call (the wiring
mutates freshly allocated copies only). Third conjunct: for two distinct
returned copies of one `batch_create_materials` call, a `Characteristic`
id `c` of one copy does not occur among the sibling's characteristics,
is not the sibling itself, is none of the prototype's characteristics
and not the prototype, and mutating the heap at `c` is not observable at
any of those ids. -/
theorem batch_isolation_spec :
    (∀ (h : Heap) (v : ArgV) (n : Nat), HeapLe h (batch_create_materials h v n).1)
    ∧ (∀ (h : Heap) (args : List ArgV) (n : Nat),
        HeapLe h (batch_create_assays h args n).1)
    ∧ (∀ (h : Heap) (i : ObjId) (n : Nat) (m : Obj),
        h[i]? = some m → isSourceSampleOrMaterial m = true →
        (∀ c ∈ m.characteristics, c < h.length) →
        ∀ (k1 k2 : Nat) (r1 r2 : ObjId) (o1 o2 : Obj),
          k1 < n → k2 < n → k1 ≠ k2 →
          (batch_create_materials h (ArgV.obj i) n).2[k1]? = some r1 →
          (batch_create_materials h (ArgV.obj i) n).2[k2]? = some r2 →
          (batch_create_materials h (ArgV.obj i) n).1[r1]? = some o1 →
          (batch_create_materials h (ArgV.obj i) n).1[r2]? = some o2 →
          ∀ c ∈ o1.characteristics,
            c ∉ o2.characteristics ∧ c ≠ r2 ∧ c ∉ m.characteristics ∧ c ≠ i
            ∧ ∀ (v : Obj) (j : ObjId),
                (j ∈ o2.characteristics ∨ j ∈ m.characteristics ∨ j = i) →
                ((batch_create_materials h (ArgV.obj i) n).1.set c v)[j]?
                  = (batch_create_materials h (ArgV.obj i) n).1[j]?) := by
  refine ⟨batch_create_materials_le, batch_create_assays_le, ?_⟩
  intro h i n m hi hm hv k1 k2 r1 r2 o1 o2 hk1 hk2 hne hL1 hL2 hlook1 hlook2
  exact batch_create_materials_isolation h i n m hi hm hv k1 k2 r1 r2 o1 o2
    hk1 hk2 hne hL1 hL2 hlook1 hlook2

/-- C6 witness: on `batch_create_materials(Source(name='S'), n=2)` both
prototype objects are untouched, the assay-batch evaluation of the C1
scenario leaves its prototypes untouched, and the characteristic copy
(id 2) of the first returned source copy is disjoint from the sibling's
(id 4): overwriting it is invisible at the sibling's characteristic, at
the prototype's characteristic and at the prototype. -/
theorem batch_isolation_spec_witness :
    (batch_create_materials srcHeap (ArgV.obj 1) 2).1[1]? = srcHeap[1]?
    ∧ (batch_create_assays protoHeap [ArgV.obj 0, ArgV.obj 2, ArgV.obj 3] 2).1[0]?
        = protoHeap[0]?
    ∧ (2 ∉ (mkSource "" "S-1" [4]).characteristics
        ∧ 2 ≠ 5 ∧ 2 ∉ (mkSource "" "S" [0]).characteristics ∧ 2 ≠ 1
        ∧ ((batch_create_materials srcHeap (ArgV.obj 1) 2).1.set 2 mkCharacteristic)[4]?
            = (batch_create_materials srcHeap (ArgV.obj 1) 2).1[4]?) := by
  refine ⟨batch_isolation_spec.1 srcHeap (ArgV.obj 1) 2 |>.2 1 (by decide),
    batch_isolation_spec.2.1 protoHeap [ArgV.obj 0, ArgV.obj 2, ArgV.obj 3] 2 |>.2 0
      (by decide), ?_⟩
  have T := batch_isolation_spec.2.2 srcHeap 1 2 (mkSource "" "S" [0])
    (by decide) (by decide) (by decide) 0 1 3 5
    (mkSource "" "S-0" [2]) (mkSource "" "S-1" [4])
    (by decide) (by decide) (by decide) (by decide) (by decide) (by decide) (by decide)
    2 (by decide)
  exact ⟨T.1, T.2.1, T.2.2.1, T.2.2.2.1, T.2.2.2.2 mkCharacteristic 4 (Or.inl (by decide))⟩
